import Mathlib

/-!
Verification development for the core timestamp engine
(`opentimestamps/core/timestamp.py`): a shallow embedding of the
`Timestamp` tree data model, its operation map (`OpSet`), merging,
canonical serialization / deserialization, and the Merkle aggregation
helpers (`cat_then_unary_op`, `cat_sha256`, `make_merkle_tree`),
together with theorems settling the specification's claims about them.

Byte strings are modelled as `List Nat`; fallible code returns
`Option` / `Except`.  The operation catalogue (`op.py`) and the
attestation type (`notary.py`) are external to the verified file and
are modelled from the spec where noted.
-/

namespace OTS

/-- Byte strings: lists of naturals (each byte `< 256` where it matters). -/
abbrev Bytes := List Nat

/-- `sizeOf` of a list is invariant under permutation (used for the
termination of functions that recurse over a sorted copy of a list). -/
theorem sizeOf_eq_of_perm {α : Type} [SizeOf α] {l1 l2 : List α}
    (h : l1.Perm l2) : sizeOf l1 = sizeOf l2 := by
  induction h with
  | nil => rfl
  | cons x _ ih => simp [ih]
  | swap x y l => simp; omega
  | trans _ _ ih1 ih2 => omega

/-- Modelled from the spec: `OpSHA256`'s digest function lives in
`op.py`, which is not part of the verified sources; the spec treats it
as an opaque deterministic bytes→bytes crypto function producing a
32-byte digest.  A concrete executable stand-in is used; no claim
depends on the actual SHA-256 digest values, only on determinism. -/
def sha256 (m : Bytes) : Bytes :=
  (List.range 32).map
    (fun i => (m.foldl (fun a b => (a * 131 + b) % 4294967296) (i + 107)) % 256)

/-- Base-128 varint, LSB-first, high bit = continuation (spec §6;
`write_varuint` of `serialize.py`, which is not part of the verified
sources). -/
def writeVaruint (n : Nat) : Bytes :=
  if n < 128 then [n] else (n % 128 + 128) :: writeVaruint (n / 128)
termination_by n
decreasing_by
  exact Nat.div_lt_self (by omega) (by omega)

/-- Inverse of `writeVaruint`: reads a varint from the front of a byte
stream, returning the value and the remaining bytes (`none` on
truncation). -/
def readVaruint : Bytes → Option (Nat × Bytes)
  | [] => none
  | b :: rest =>
    if b < 128 then some (b, rest)
    else
      match readVaruint rest with
      | none => none
      | some (v, r) => some (v * 128 + b % 128, r)

/-- Length-prefixed byte string (spec §6 `write_varbytes`). -/
def writeVarbytes (b : Bytes) : Bytes := writeVaruint b.length ++ b

/-- Inverse of `writeVarbytes` (spec §6 `read_varbytes`; bounds are the
caller's concern and not modelled here since the spec leaves op and
attestation payloads unbounded). -/
def readVarbytes (s : Bytes) : Option (Bytes × Bytes) :=
  match readVaruint s with
  | none => none
  | some (n, r) => if r.length < n then none else some (r.take n, r.drop n)

theorem readVaruint_writeVaruint (n : Nat) (rest : Bytes) :
    readVaruint (writeVaruint n ++ rest) = some (n, rest) := by
  induction n using Nat.strong_induction_on with
  | _ n ih =>
    rw [writeVaruint]
    by_cases h : n < 128
    · simp [h, readVaruint]
    · have hdiv : n / 128 < n := Nat.div_lt_self (by omega) (by omega)
      have hge : ¬ (n % 128 + 128 < 128) := by omega
      simp only [if_neg h, List.cons_append, readVaruint, if_neg hge,
        ih (n / 128) hdiv]
      have heq : n / 128 * 128 + (n % 128 + 128) % 128 = n := by omega
      rw [heq]

theorem readVarbytes_writeVarbytes (b : Bytes) (rest : Bytes) :
    readVarbytes (writeVarbytes b ++ rest) = some (b, rest) := by
  unfold readVarbytes writeVarbytes
  rw [List.append_assoc, readVaruint_writeVaruint]
  simp

/-- Modelled from the spec: the operation catalogue of `op.py` is not
part of the verified sources.  Per spec §3/§6 an operation is either a
unary crypto op (here `opSHA256`) or a binary-prepared op carrying a
fixed payload that it concatenates on one side of its input
(`opAppend` / `opPrepend`). -/
inductive Op where
  | opSHA256 : Op
  | opAppend (payload : Bytes) : Op
  | opPrepend (payload : Bytes) : Op
deriving DecidableEq, Repr

/-- `op(msg)`: the pure bytes→bytes function the operation denotes
(spec §4.A `apply`). -/
def Op.apply : Op → Bytes → Bytes
  | .opSHA256, m => sha256 m
  | .opAppend p, m => m ++ p
  | .opPrepend p, m => p ++ m

/-- Modelled from the spec: each operation encodes as a one-byte tag;
tags are registry-defined and must not collide with the control bytes
`0x00` and `0xff` (spec §6).  The SHA-256 tag `0x08` is fixed by spec
§8 S2; the append/prepend tags are registry values chosen here. -/
def Op.tag : Op → Nat
  | .opSHA256 => 0x08
  | .opAppend _ => 0xf0
  | .opPrepend _ => 0xf1

/-- The prepared payload of a binary op; empty for crypto ops. -/
def Op.payload : Op → Bytes
  | .opSHA256 => []
  | .opAppend p => p
  | .opPrepend p => p

/-- Modelled from the spec (§4.A `serialize`): the op's one-byte tag,
then, for append/prepend, a length-prefixed payload. -/
def Op.serialize : Op → Bytes
  | .opSHA256 => [0x08]
  | .opAppend p => 0xf0 :: writeVarbytes p
  | .opPrepend p => 0xf1 :: writeVarbytes p

/-- Modelled from the spec (§4.A `deserialize_from_tag`): inverse of
`Op.serialize` given the already-read tag byte. -/
def Op.deserializeFromTag (tag : Nat) (s : Bytes) : Option (Op × Bytes) :=
  if tag = 0x08 then some (.opSHA256, s)
  else if tag = 0xf0 then
    match readVarbytes s with
    | some (p, r) => some (.opAppend p, r)
    | none => none
  else if tag = 0xf1 then
    match readVarbytes s with
    | some (p, r) => some (.opPrepend p, r)
    | none => none
  else none

/-- Modelled from the spec (§4.A): the canonical total order on
operations — lexicographic over tag then payload. -/
def Op.le (a b : Op) : Prop := a.tag :: a.payload ≤ b.tag :: b.payload

instance : DecidableRel Op.le := fun _ _ =>
  inferInstanceAs (Decidable (_ ≤ _))

theorem Op.key_inj {a b : Op}
    (h : a.tag :: a.payload = b.tag :: b.payload) : a = b := by
  cases a <;> cases b <;>
    simp_all [Op.tag, Op.payload]

instance : IsTotal Op Op.le :=
  ⟨fun a b => le_total (a.tag :: a.payload) (b.tag :: b.payload)⟩

instance : IsTrans Op Op.le :=
  ⟨fun _ _ _ hab hbc => le_trans hab hbc⟩

instance : IsAntisymm Op Op.le :=
  ⟨fun _ _ hab hba => Op.key_inj (le_antisymm hab hba)⟩

theorem Op.deserialize_serialize (o : Op) (rest : Bytes) :
    ∀ s, Op.serialize o ++ rest = Op.tag o :: s →
      Op.deserializeFromTag o.tag s = some (o, rest) := by
  intro s hs
  cases o with
  | opSHA256 =>
    simp_all [Op.serialize, Op.tag, Op.deserializeFromTag]
  | opAppend p =>
    simp only [Op.serialize, Op.tag, List.cons_append,
      List.cons.injEq, true_and] at hs
    subst hs
    simp [Op.deserializeFromTag, Op.tag, readVarbytes_writeVarbytes]
  | opPrepend p =>
    simp only [Op.serialize, Op.tag, List.cons_append,
      List.cons.injEq, true_and] at hs
    subst hs
    simp [Op.deserializeFromTag, Op.tag, readVarbytes_writeVarbytes]

/-- Modelled from the spec: the attestation type of `notary.py` is not
part of the verified sources.  Per spec §3/§6 an attestation is an
opaque, totally ordered value serialized as a self-describing frame:
an 8-byte kind magic followed by a length-prefixed payload.  A single
kind suffices for the timestamp codec, which treats it opaquely. -/
structure TimeAttestation where
  payload : Bytes
deriving DecidableEq, Repr

/-- The fixed 8-byte attestation kind magic (registry value). -/
def attMagic : Bytes := [0x83, 0xdf, 0xe3, 0x0d, 0x2e, 0xf9, 0x0c, 0x8e]

/-- Modelled from the spec (§6): `tag (8 bytes of magic)` then a
length-prefixed payload. -/
def TimeAttestation.serialize (a : TimeAttestation) : Bytes :=
  attMagic ++ writeVarbytes a.payload

/-- Modelled from the spec (§6): reads the 8-byte magic then the
length-prefixed payload. -/
def TimeAttestation.deserialize (s : Bytes) :
    Option (TimeAttestation × Bytes) :=
  if s.take 8 = attMagic then
    match readVarbytes (s.drop 8) with
    | some (p, r) => some (⟨p⟩, r)
    | none => none
  else none

/-- Modelled from the spec (§3): the total order on attestations, used
only as a canonical-serialization tie-break; lexicographic over the
payload. -/
def TimeAttestation.le (a b : TimeAttestation) : Prop :=
  a.payload ≤ b.payload

instance : DecidableRel TimeAttestation.le := fun _ _ =>
  inferInstanceAs (Decidable (_ ≤ _))

instance : IsTotal TimeAttestation TimeAttestation.le :=
  ⟨fun a b => le_total a.payload b.payload⟩

instance : IsTrans TimeAttestation TimeAttestation.le :=
  ⟨fun _ _ _ hab hbc => le_trans hab hbc⟩

instance : IsAntisymm TimeAttestation TimeAttestation.le :=
  ⟨fun a b hab hba => by
    cases a; cases b
    simpa using le_antisymm hab hba⟩

theorem TimeAttestation.deserialize_roundtrip (a : TimeAttestation)
    (rest : Bytes) :
    TimeAttestation.deserialize (a.serialize ++ rest) = some (a, rest) := by
  unfold TimeAttestation.deserialize TimeAttestation.serialize
  rw [List.append_assoc]
  have hlen : attMagic.length = 8 := by rfl
  rw [List.take_left' hlen, List.drop_left' hlen]
  simp [readVarbytes_writeVarbytes]

/-- `Timestamp` (timestamp.py:50): a message, a set of attestations and
an operation map.  The Python `set` of attestations and the `OpSet`
dict are modelled as lists; set/map semantics (no duplicates, keyed
lookup) are enforced by the operations and the `wf` predicate. -/
inductive Timestamp where
  | mk (msg : Bytes) (attestations : List TimeAttestation)
      (ops : List (Op × Timestamp))

/-- `Timestamp.msg` (timestamp.py:59-61). -/
def Timestamp.msg : Timestamp → Bytes
  | .mk m _ _ => m

/-- The attestation set of a node. -/
def Timestamp.attestations : Timestamp → List TimeAttestation
  | .mk _ a _ => a

/-- The operation map of a node, as a keyed association list. -/
def Timestamp.ops : Timestamp → List (Op × Timestamp)
  | .mk _ _ o => o

/-- `Timestamp.__init__` (timestamp.py:63-66): fresh node with empty
attestation set and empty op map. -/
def Timestamp.new (msg : Bytes) : Timestamp := .mk msg [] []

/-- Keyed lookup in an op map (Python dict `self[key]`). -/
def lookupOp (op : Op) : List (Op × Timestamp) → Option Timestamp
  | [] => none
  | (o, t) :: rest => if o = op then some t else lookupOp op rest

/-- Replace the value stored under an existing key, keeping its
position (Python `dict.__setitem__` on a present key). -/
def replaceOp : List (Op × Timestamp) → Op → Timestamp → List (Op × Timestamp)
  | [], _, _ => []
  | (o, c) :: rest, op, t =>
    if o = op then (op, t) :: rest else (o, c) :: replaceOp rest op t

/-- `OpSet.add` (timestamp.py:26-36): return the existing child for
`op`, or create one whose message is `op(msg)` (the stored
`make_timestamp` closure of timestamp.py:66), insert it and return it.
Returns the updated map and the child. -/
def OpSet.add (msg : Bytes) (ops : List (Op × Timestamp)) (op : Op) :
    List (Op × Timestamp) × Timestamp :=
  match lookupOp op ops with
  | some t => (ops, t)
  | none =>
    let t := Timestamp.new (op.apply msg)
    (ops ++ [(op, t)], t)

/-- `OpSet.__setitem__` (timestamp.py:38-48): insert when the key is
absent; with an existing entry, replace only if the existing child's
message equals the new child's message, else fail. -/
def OpSet.setItem (ops : List (Op × Timestamp)) (op : Op) (t : Timestamp) :
    Except String (List (Op × Timestamp)) :=
  match lookupOp op ops with
  | none => .ok (ops ++ [(op, t)])
  | some existing =>
    if existing.msg ≠ t.msg then
      .error "Can't change existing result timestamp: timestamps are for different messages"
    else
      .ok (replaceOp ops op t)

/-- Python `set.add` on the attestation set: no-op when present, else
insert. -/
def setAdd (l : List TimeAttestation) (a : TimeAttestation) :
    List TimeAttestation :=
  if a ∈ l then l else l ++ [a]

/-- Python `set.update` (timestamp.py:88): fold `set.add` over the
other set. -/
def setUnion (l other : List TimeAttestation) : List TimeAttestation :=
  other.foldl setAdd l

/-- `Timestamp.addOp`: `self.ops.add(op)` at the node level, returning
the updated node and the child. -/
def Timestamp.addOp : Timestamp → Op → Timestamp × Timestamp
  | .mk m a o, op =>
    let r := OpSet.add m o op
    (.mk m a r.1, r.2)

mutual

/-- `Timestamp.merge` (timestamp.py:77-92): fails on a message
mismatch, otherwise unions the attestations and, for each entry of the
other op map, obtains/creates the local child via `ops.add` and merges
recursively.  State passing replaces the source's in-place mutation:
the merged entry replaces the map entry (Python mutates the child the
entry already points to). -/
def Timestamp.merge : Timestamp → Timestamp → Except String Timestamp
  | .mk m a o, .mk m2 a2 o2 =>
    if m ≠ m2 then
      .error "Can't merge timestamps for different messages together"
    else
      match mergeOps m o o2 with
      | .error e => .error e
      | .ok o3 => .ok (.mk m (setUnion a a2) o3)
termination_by t o => sizeOf o
decreasing_by all_goals (first | (simp; omega) | simp)

/-- The loop of timestamp.py:90-92 over the other timestamp's op map. -/
def mergeOps (m : Bytes) (ours : List (Op × Timestamp)) :
    List (Op × Timestamp) → Except String (List (Op × Timestamp))
  | [] => .ok ours
  | (op, ostamp) :: rest =>
    let r := OpSet.add m ours op
    match r.2.merge ostamp with
    | .error e => .error e
    | .ok merged => mergeOps m (replaceOp r.1 op merged) rest
termination_by l => sizeOf l
decreasing_by all_goals (first | (simp; omega) | simp)

end

/-- Every key of the first map is present in the second. -/
def keysSub (l1 l2 : List (Op × Timestamp)) : Bool :=
  l1.all (fun p => (lookupOp p.1 l2).isSome)

mutual

/-- `Timestamp.__eq__` (timestamp.py:68-72): compares the message and
the op maps — and only those; dict equality on the op maps compares
key sets and, per shared key, the child timestamps under this same
equality. -/
def tsEq : Timestamp → Timestamp → Bool
  | .mk m1 _ o1, .mk m2 _ o2 =>
    m1 == m2 && keysSub o2 o1 && tsEqOps o1 o2
termination_by t _ => sizeOf t
decreasing_by all_goals (first | (simp; omega) | simp)

/-- Each entry of the first map has a `tsEq`-equal entry in the
second. -/
def tsEqOps : List (Op × Timestamp) → List (Op × Timestamp) → Bool
  | [], _ => true
  | (op, c) :: rest, o2 =>
    (match lookupOp op o2 with
     | some c2 => tsEq c c2
     | none => false) && tsEqOps rest o2
termination_by l _ => sizeOf l
decreasing_by all_goals (first | (simp; omega) | simp)

end

/-- Set equality of attestation lists: same membership both ways. -/
def attSetEq (a1 a2 : List TimeAttestation) : Bool :=
  a1.all (fun x => decide (x ∈ a2)) && a2.all (fun x => decide (x ∈ a1))

mutual

/-- The spec's equality (spec §4.D as this spec requires it): equal
messages, equal attestation *sets*, and op maps agreeing recursively —
same keys, children equal under this same equality. -/
def eqFull : Timestamp → Timestamp → Bool
  | .mk m1 a1 o1, .mk m2 a2 o2 =>
    m1 == m2 && attSetEq a1 a2 && keysSub o2 o1 && eqFullOps o1 o2
termination_by t _ => sizeOf t
decreasing_by all_goals (first | (simp; omega) | simp)

/-- Each entry of the first map has an `eqFull`-equal entry in the
second. -/
def eqFullOps : List (Op × Timestamp) → List (Op × Timestamp) → Bool
  | [], _ => true
  | (op, c) :: rest, o2 =>
    (match lookupOp op o2 with
     | some c2 => eqFull c c2
     | none => false) && eqFullOps rest o2
termination_by l _ => sizeOf l
decreasing_by all_goals (first | (simp; omega) | simp)

end

/-- No duplicates in an attestation list. -/
def nodupAtts : List TimeAttestation → Bool
  | [] => true
  | a :: rest => !(decide (a ∈ rest)) && nodupAtts rest

/-- No duplicates in a key list. -/
def nodupKeys : List Op → Bool
  | [] => true
  | k :: rest => !(decide (k ∈ rest)) && nodupKeys rest

mutual

/-- Well-formedness of a timestamp tree as maintained by the code's
set/dict representation invariants plus the child-message invariant
(spec §3): no duplicate attestations, no duplicate op keys, and every
child's message is `op(msg)`, recursively. -/
def wf : Timestamp → Bool
  | .mk msg a o =>
    nodupAtts a && nodupKeys (o.map Prod.fst) && wfOps msg o
termination_by t => sizeOf t
decreasing_by all_goals (first | (simp; omega) | simp)

/-- Child-message invariant plus recursive well-formedness of each
entry of an op map. -/
def wfOps (msg : Bytes) : List (Op × Timestamp) → Bool
  | [] => true
  | (op, c) :: rest => c.msg == op.apply msg && wf c && wfOps msg rest
termination_by l => sizeOf l
decreasing_by all_goals (first | (simp; omega) | simp)

end

mutual

/-- Recursive non-emptiness: every node of the tree has at least one
attestation or one operation (spec §3 invariant 4: serializability). -/
def recNE : Timestamp → Bool
  | .mk _ a o =>
    (!a.isEmpty || !o.isEmpty) && recNEOps o
termination_by t => sizeOf t
decreasing_by all_goals (first | (simp; omega) | simp)

/-- Recursive non-emptiness of every entry of an op map. -/
def recNEOps : List (Op × Timestamp) → Bool
  | [] => true
  | (_, c) :: rest => recNE c && recNEOps rest
termination_by l => sizeOf l
decreasing_by all_goals (first | (simp; omega) | simp)

end

/-- `sorted(self.attestations)` (timestamp.py:98): the attestation set
in its canonical total order. -/
def sortAtts (l : List TimeAttestation) : List TimeAttestation :=
  List.insertionSort TimeAttestation.le l

/-- The order on op-map entries used by
`sorted(self.ops.items(), key=...)` (timestamp.py:113): by op only. -/
def opPairLe (x y : Op × Timestamp) : Prop := Op.le x.1 y.1

instance : DecidableRel opPairLe := fun x y =>
  inferInstanceAs (Decidable (Op.le x.1 y.1))

instance : IsTotal (Op × Timestamp) opPairLe :=
  ⟨fun a b => IsTotal.total (r := Op.le) a.1 b.1⟩

instance : IsTrans (Op × Timestamp) opPairLe :=
  ⟨fun _ _ _ hab hbc => le_trans hab hbc⟩

/-- `sorted(self.ops.items(), key=lambda item: item[0])`
(timestamp.py:113). -/
def sortOps (l : List (Op × Timestamp)) : List (Op × Timestamp) :=
  List.insertionSort opPairLe l

mutual

/-- `Timestamp.serialize` (timestamp.py:94-121): `none` replaces the
`ValueError` on an empty node.  All attestations but, when there are
no ops, the last are emitted as `0xff 0x00 payload`; with ops present
the last attestation is also emitted in that form, then all ops but
the last with a leading `0xff`, and the last op without it; with no
ops the last attestation is emitted as `0x00 payload`. -/
def Timestamp.serialize : Timestamp → Option Bytes
  | .mk _ atts ops =>
    if atts.isEmpty && ops.isEmpty then none
    else
      let sa := sortAtts atts
      let pre :=
        if 1 < sa.length then
          sa.dropLast.flatMap (fun a => 0xff :: 0x00 :: a.serialize)
        else []
      match ops with
      | [] =>
        match sa.getLast? with
        | some la => some (pre ++ 0x00 :: la.serialize)
        | none => none
      | o1 :: orest =>
        let attLast :=
          match sa.getLast? with
          | some la => 0xff :: 0x00 :: la.serialize
          | none => []
        match serializeOpsSorted (sortOps (o1 :: orest)) with
        | some ob => some (pre ++ attLast ++ ob)
        | none => none
termination_by t => sizeOf t
decreasing_by
  all_goals
    simp only [sortOps, Timestamp.mk.sizeOf_spec,
      sizeOf_eq_of_perm (List.perm_insertionSort opPairLe (o1 :: orest))]
    first
    | omega
    | (simp; omega)
    | simp

/-- The op loop of timestamp.py:113-121 on the already-sorted entry
list: every op but the last is prefixed with `0xff`; each op's
encoding is followed by its child's recursive encoding. -/
def serializeOpsSorted : List (Op × Timestamp) → Option Bytes
  | [] => none
  | [(op, st)] =>
    match st.serialize with
    | some sb => some (op.serialize ++ sb)
    | none => none
  | (op, st) :: rest =>
    match st.serialize, serializeOpsSorted rest with
    | some sb, some rb => some (0xff :: (op.serialize ++ sb) ++ rb)
    | _, _ => none
termination_by l => sizeOf l
decreasing_by all_goals (first | (simp; omega) | simp)

end

mutual

/-- One step of `Timestamp.deserialize` (timestamp.py:123-151): parse
one node with the given initial message from the front of the stream.
`fuel` only bounds the recursion depth; `Timestamp.deserialize` below
supplies enough for any input. -/
def dsNode (fuel : Nat) (msg : Bytes) (s : Bytes) :
    Option (Timestamp × Bytes) :=
  match fuel with
  | 0 => none
  | fuel + 1 =>
    match s with
    | [] => none
    | tag :: rest => dsTags fuel msg [] [] tag rest

/-- The `while tag == b'\xff'` loop of timestamp.py:143-149, carrying
the attestations and ops accumulated so far at this node. -/
def dsTags (fuel : Nat) (msg : Bytes) (atts : List TimeAttestation)
    (ops : List (Op × Timestamp)) (tag : Nat) (s : Bytes) :
    Option (Timestamp × Bytes) :=
  match fuel with
  | 0 => none
  | fuel + 1 =>
    if tag = 0xff then
      match s with
      | [] => none
      | kind :: s2 =>
        match dsItem fuel msg atts ops kind s2 with
        | none => none
        | some (atts2, ops2, s3) =>
          match s3 with
          | [] => none
          | tag2 :: s4 => dsTags fuel msg atts2 ops2 tag2 s4
    else
      match dsItem fuel msg atts ops tag s with
      | none => none
      | some (atts2, ops2, s3) => some (.mk msg atts2 ops2, s3)

/-- `do_tag_or_attestation` (timestamp.py:133-141): kind byte `0x00`
reads an attestation into the set; any other byte is an op tag — the
op is parsed, its child is parsed recursively with message
`op(initial_msg)`, and `self.ops[op] = stamp` stores it. -/
def dsItem (fuel : Nat) (msg : Bytes) (atts : List TimeAttestation)
    (ops : List (Op × Timestamp)) (kind : Nat) (s : Bytes) :
    Option (List TimeAttestation × List (Op × Timestamp) × Bytes) :=
  match fuel with
  | 0 => none
  | fuel + 1 =>
    if kind = 0x00 then
      match TimeAttestation.deserialize s with
      | none => none
      | some (a, r) => some (setAdd atts a, ops, r)
    else
      match Op.deserializeFromTag kind s with
      | none => none
      | some (op, r) =>
        match dsNode fuel (op.apply msg) r with
        | none => none
        | some (child, r2) =>
          match OpSet.setItem ops op child with
          | .error _ => none
          | .ok ops2 => some (atts, ops2, r2)

end

/-- `Timestamp.deserialize` (timestamp.py:123-151): parse a timestamp
from the stream given the initial message, returning the timestamp and
the unconsumed remainder of the stream (the advanced context).  The
supplied fuel exceeds any possible recursion depth on `s`. -/
def Timestamp.deserialize (s : Bytes) (initialMsg : Bytes) :
    Option (Timestamp × Bytes) :=
  dsNode (3 * s.length + 3) initialMsg s

/-- `cat_then_unary_op` (timestamp.py:242-263).  Returns the updated
left and right timestamps and the returned tip.  The source mutates
shared structure in place: after `left.ops[OpAppend(right.msg)] =
right_prepend_stamp`, both parents alias one child, and
`right_prepend_stamp.ops.add(unary_op_cls())` mutates it; here the
updated shared child replaces the entry in both parents'
op maps. -/
def cat_then_unary_op (u : Op) (left right : Timestamp) :
    Except String (Timestamp × Timestamp × Timestamp) :=
  let r1 := left.addOp (.opAppend right.msg)
  let r2 := right.addOp (.opPrepend left.msg)
  match OpSet.setItem r1.1.ops (.opAppend right.msg) r2.2 with
  | .error e => .error e
  | .ok lops =>
    let r3 := r2.2.addOp u
    let left2 := Timestamp.mk r1.1.msg r1.1.attestations
      (replaceOp lops (.opAppend right.msg) r3.1)
    let right2 := Timestamp.mk r2.1.msg r2.1.attestations
      (replaceOp r2.1.ops (.opPrepend left.msg) r3.1)
    .ok (left2, right2, r3.2)

/-- `cat_sha256` (timestamp.py:266-267). -/
def cat_sha256 (left right : Timestamp) :
    Except String (Timestamp × Timestamp × Timestamp) :=
  cat_then_unary_op .opSHA256 left right

/-- One pass of the pairing loop of `make_merkle_tree`
(timestamp.py:296-302): walk the list holding a pending `prev`; on
each element, if `prev` is set, emit `cat_sha256(prev, current)`'s tip
and clear `prev`, else set `prev`.  Returns the emitted list and the
final pending element. -/
def merkleLevel : Option Timestamp → List Timestamp →
    Except String (List Timestamp × Option Timestamp)
  | prev, [] => .ok ([], prev)
  | some p, s :: rest =>
    match cat_sha256 p s with
    | .error e => .error e
    | .ok r =>
      match merkleLevel none rest with
      | .error e => .error e
      | .ok (outs, pr) => .ok (r.2.2 :: outs, pr)
  | none, s :: rest => merkleLevel (some s) rest

/-- Element accounting for `merkleLevel`: each emitted element consumed
two inputs and the pending slot consumed one. -/
theorem merkleLevel_length :
    ∀ prev l outs pr, merkleLevel prev l = .ok (outs, pr) →
      2 * outs.length + (if pr.isSome then 1 else 0)
        = l.length + (if prev.isSome then 1 else 0) := by
  intro prev l
  induction l generalizing prev with
  | nil =>
    intro outs pr h
    simp [merkleLevel] at h
    simp [h.1, h.2]
  | cons s rest ih =>
    intro outs pr h
    cases prev with
    | none =>
      simp only [merkleLevel] at h
      have hih := ih (some s) outs pr h
      simp at hih ⊢ <;> omega
    | some p =>
      simp only [merkleLevel] at h
      cases hc : cat_sha256 p s with
      | error e => rw [hc] at h; exact absurd h (by simp)
      | ok r =>
        rw [hc] at h
        cases hm : merkleLevel none rest with
        | error e => rw [hm] at h; exact absurd h (by simp)
        | ok q =>
          rw [hm] at h
          obtain ⟨outs2, pr2⟩ := q
          simp only [Except.ok.injEq, Prod.mk.injEq] at h
          obtain ⟨ho, hp⟩ := h
          have hih := ih none outs2 pr2 hm
          subst hp
          subst ho
          simp at hih ⊢ <;> omega

/-- `make_merkle_tree` (timestamp.py:275-310) with the default
`binop=cat_sha256`: repeatedly pair adjacent elements with
`cat_sha256`, carrying the odd element up unchanged, until one tip
remains; fails on an empty input list. -/
def make_merkle_tree : List Timestamp → Except String Timestamp
  | [] => .error "Need at least one timestamp"
  | t :: rest =>
    match h : merkleLevel (some t) rest with
    | .error e => .error e
    | .ok ([], pr) =>
      -- an empty level leaves the pending element as the result; the
      -- pending slot is provably occupied here
      match pr with
      | some p => .ok p
      | none => .error "Need at least one timestamp"
    | .ok (n1 :: ns, pr) =>
      let nexts :=
        match pr with
        | some p => (n1 :: ns) ++ [p]
        | none => n1 :: ns
      make_merkle_tree nexts
termination_by l => l.length
decreasing_by
  have hlen := merkleLevel_length (some t) rest (n1 :: ns) pr h
  cases pr <;> simp_all <;> omega

/-! ### Bridging lemmas between the executable predicates and `Prop` -/

theorem nodupAtts_iff (l : List TimeAttestation) :
    nodupAtts l = true ↔ l.Nodup := by
  induction l with
  | nil => simp [nodupAtts]
  | cons a rest ih => simp [nodupAtts, ih]

theorem nodupKeys_iff (l : List Op) :
    nodupKeys l = true ↔ l.Nodup := by
  induction l with
  | nil => simp [nodupKeys]
  | cons a rest ih => simp [nodupKeys, ih]

theorem wfOps_iff (msg : Bytes) (l : List (Op × Timestamp)) :
    wfOps msg l = true ↔
      ∀ p ∈ l, p.2.msg = p.1.apply msg ∧ wf p.2 = true := by
  induction l with
  | nil => simp [wfOps]
  | cons p rest ih =>
    obtain ⟨op, c⟩ := p
    simp only [wfOps, Bool.and_eq_true, beq_iff_eq, ih,
      List.forall_mem_cons]

theorem wf_iff (m : Bytes) (a : List TimeAttestation)
    (o : List (Op × Timestamp)) :
    wf (.mk m a o) = true ↔
      a.Nodup ∧ (o.map Prod.fst).Nodup ∧
        ∀ p ∈ o, p.2.msg = p.1.apply m ∧ wf p.2 = true := by
  simp [wf, Bool.and_eq_true, nodupAtts_iff, nodupKeys_iff, wfOps_iff,
    and_assoc]

theorem recNEOps_iff (l : List (Op × Timestamp)) :
    recNEOps l = true ↔ ∀ p ∈ l, recNE p.2 = true := by
  induction l with
  | nil => simp [recNEOps]
  | cons p rest ih =>
    obtain ⟨op, c⟩ := p
    simp [recNEOps, ih, Bool.and_eq_true]

theorem recNE_iff (m : Bytes) (a : List TimeAttestation)
    (o : List (Op × Timestamp)) :
    recNE (.mk m a o) = true ↔
      (a ≠ [] ∨ o ≠ []) ∧ ∀ p ∈ o, recNE p.2 = true := by
  simp [recNE, Bool.and_eq_true, recNEOps_iff, Bool.or_eq_true,
    List.isEmpty_iff]

theorem lookupOp_mem {op : Op} {l : List (Op × Timestamp)} {c : Timestamp}
    (h : lookupOp op l = some c) : (op, c) ∈ l := by
  induction l with
  | nil => simp [lookupOp] at h
  | cons p rest ih =>
    obtain ⟨o, t⟩ := p
    by_cases he : o = op
    · subst he
      simp [lookupOp] at h
      simp [h]
    · simp [lookupOp, he] at h
      exact List.mem_cons_of_mem _ (ih h)

theorem lookupOp_eq_none_iff (op : Op) (l : List (Op × Timestamp)) :
    lookupOp op l = none ↔ op ∉ l.map Prod.fst := by
  induction l with
  | nil => simp [lookupOp]
  | cons p rest ih =>
    obtain ⟨o, t⟩ := p
    by_cases he : o = op
    · subst he; simp [lookupOp]
    · have hne : op ≠ o := fun h => he h.symm
      simp [lookupOp, he, ih, hne]

theorem lookupOp_isSome_iff (op : Op) (l : List (Op × Timestamp)) :
    (lookupOp op l).isSome = true ↔ op ∈ l.map Prod.fst := by
  rw [Option.isSome_iff_ne_none]
  rw [ne_eq, lookupOp_eq_none_iff]
  simp

theorem mem_lookupOp {op : Op} {c : Timestamp} {l : List (Op × Timestamp)}
    (hnd : (l.map Prod.fst).Nodup) (hmem : (op, c) ∈ l) :
    lookupOp op l = some c := by
  induction l with
  | nil => simp at hmem
  | cons p rest ih =>
    obtain ⟨o, t⟩ := p
    simp only [List.map_cons, List.nodup_cons] at hnd
    rcases List.mem_cons.mp hmem with heq | htl
    · injection heq with h1 h2
      subst h1
      subst h2
      simp [lookupOp]
    · have hne : o ≠ op := by
        intro he
        subst he
        exact hnd.1 (List.mem_map.mpr ⟨(o, c), htl, rfl⟩)
      simp [lookupOp, hne]
      exact ih hnd.2 htl

theorem keys_replaceOp (l : List (Op × Timestamp)) (op : Op)
    (t : Timestamp) :
    (replaceOp l op t).map Prod.fst = l.map Prod.fst := by
  induction l with
  | nil => simp [replaceOp]
  | cons p rest ih =>
    obtain ⟨o, c⟩ := p
    by_cases he : o = op
    · subst he; simp [replaceOp]
    · simp [replaceOp, he, ih]

theorem lookupOp_replaceOp_self {op : Op} {l : List (Op × Timestamp)}
    {c : Timestamp} (t : Timestamp) (h : lookupOp op l = some c) :
    lookupOp op (replaceOp l op t) = some t := by
  induction l with
  | nil => simp [lookupOp] at h
  | cons p rest ih =>
    obtain ⟨o, c2⟩ := p
    by_cases he : o = op
    · subst he; simp [replaceOp, lookupOp]
    · simp only [lookupOp, if_neg he] at h
      simp [replaceOp, he, lookupOp, ih h]

theorem lookupOp_replaceOp_other {op op2 : Op} (l : List (Op × Timestamp))
    (t : Timestamp) (hne : op2 ≠ op) :
    lookupOp op2 (replaceOp l op t) = lookupOp op2 l := by
  induction l with
  | nil => simp [replaceOp]
  | cons p rest ih =>
    obtain ⟨o, c⟩ := p
    by_cases he : o = op
    · subst he
      simp [replaceOp, lookupOp, if_neg (Ne.symm hne), Ne.symm hne]
    · by_cases he2 : o = op2
      · subst he2; simp [replaceOp, he, lookupOp]
      · simp [replaceOp, he, lookupOp, he2, ih]

theorem mem_setAdd (l : List TimeAttestation) (a x : TimeAttestation) :
    x ∈ setAdd l a ↔ x ∈ l ∨ x = a := by
  by_cases h : a ∈ l
  · simp only [setAdd, if_pos h]
    constructor
    · exact fun hx => Or.inl hx
    · rintro (hx | rfl)
      · exact hx
      · exact h
  · simp [setAdd, if_neg h]

theorem nodup_setAdd (l : List TimeAttestation) (a : TimeAttestation)
    (h : l.Nodup) : (setAdd l a).Nodup := by
  by_cases hm : a ∈ l
  · simpa [setAdd, if_pos hm]
  · simp only [setAdd, if_neg hm]
    refine List.Nodup.append h (List.nodup_singleton a) ?_
    intro x hx hxa
    rw [List.mem_singleton] at hxa
    subst hxa
    exact hm hx

theorem mem_setUnion (l other : List TimeAttestation)
    (x : TimeAttestation) : x ∈ setUnion l other ↔ x ∈ l ∨ x ∈ other := by
  induction other generalizing l with
  | nil => simp [setUnion]
  | cons a rest ih =>
    simp only [setUnion, List.foldl_cons]
    rw [show List.foldl setAdd (setAdd l a) rest
        = setUnion (setAdd l a) rest from rfl, ih, mem_setAdd]
    simp [List.mem_cons]
    tauto

theorem nodup_setUnion (l other : List TimeAttestation)
    (h : l.Nodup) : (setUnion l other).Nodup := by
  induction other generalizing l with
  | nil => simpa [setUnion]
  | cons a rest ih =>
    simp only [setUnion, List.foldl_cons]
    exact ih (setAdd l a) (nodup_setAdd l a h)

theorem keysSub_iff (l1 l2 : List (Op × Timestamp)) :
    keysSub l1 l2 = true ↔ ∀ p ∈ l1, (lookupOp p.1 l2).isSome = true := by
  simp [keysSub, List.all_eq_true]

theorem tsEqOps_iff (l o2 : List (Op × Timestamp)) :
    tsEqOps l o2 = true ↔
      ∀ p ∈ l, ∃ c2, lookupOp p.1 o2 = some c2 ∧ tsEq p.2 c2 = true := by
  induction l with
  | nil => simp [tsEqOps]
  | cons p rest ih =>
    obtain ⟨op, c⟩ := p
    simp only [tsEqOps, Bool.and_eq_true, ih]
    constructor
    · rintro ⟨h1, h2⟩
      intro q hq
      rcases List.mem_cons.mp hq with heq | htl
      · subst heq
        match hl : lookupOp op o2 with
        | some c2 =>
          rw [hl] at h1
          exact ⟨c2, rfl, h1⟩
        | none => rw [hl] at h1; exact absurd h1 (by simp)
      · exact h2 q htl
    · intro h
      constructor
      · obtain ⟨c2, hl, he⟩ := h (op, c) (List.mem_cons_self _ _)
        rw [hl]
        exact he
      · exact fun q hq => h q (List.mem_cons_of_mem _ hq)

theorem eqFullOps_iff (l o2 : List (Op × Timestamp)) :
    eqFullOps l o2 = true ↔
      ∀ p ∈ l, ∃ c2, lookupOp p.1 o2 = some c2 ∧ eqFull p.2 c2 = true := by
  induction l with
  | nil => simp [eqFullOps]
  | cons p rest ih =>
    obtain ⟨op, c⟩ := p
    simp only [eqFullOps, Bool.and_eq_true, ih]
    constructor
    · rintro ⟨h1, h2⟩
      intro q hq
      rcases List.mem_cons.mp hq with heq | htl
      · subst heq
        match hl : lookupOp op o2 with
        | some c2 =>
          rw [hl] at h1
          exact ⟨c2, rfl, h1⟩
        | none => rw [hl] at h1; exact absurd h1 (by simp)
      · exact h2 q htl
    · intro h
      constructor
      · obtain ⟨c2, hl, he⟩ := h (op, c) (List.mem_cons_self _ _)
        rw [hl]
        exact he
      · exact fun q hq => h q (List.mem_cons_of_mem _ hq)

theorem attSetEq_iff (a1 a2 : List TimeAttestation) :
    attSetEq a1 a2 = true ↔ ∀ x, x ∈ a1 ↔ x ∈ a2 := by
  simp only [attSetEq, Bool.and_eq_true, List.all_eq_true, decide_eq_true_eq]
  constructor
  · rintro ⟨h1, h2⟩ x
    exact ⟨fun hx => h1 x hx, fun hx => h2 x hx⟩
  · intro h
    exact ⟨fun x hx => (h x).mp hx, fun x hx => (h x).mpr hx⟩

/-! ### Claim C1 — equality and attestations -/

/-- C1, counterexample: two timestamps with the same message, empty op
maps and *different* attestation sets are nevertheless equal under
`Timestamp.__eq__`, refuting the claim that equality holds only when
the attestation sets match. -/
theorem C1_counterexample :
    tsEq (.mk [0] [⟨[]⟩] []) (.mk [0] [] []) = true ∧
      attSetEq (Timestamp.attestations (.mk [0] [⟨[]⟩] []))
        (Timestamp.attestations (.mk [0] [] [])) = false := by
  constructor
  · simp [tsEq, keysSub, tsEqOps]
  · rfl

/-- C1 (amended): `Timestamp.__eq__` holds iff the messages agree and
the op maps agree recursively — same key sets and, per entry, children
equal under this same equality; the attestation sets are ignored at
every level. -/
theorem C1_tsEq_characterization (m1 m2 : Bytes)
    (a1 a2 : List TimeAttestation) (o1 o2 : List (Op × Timestamp)) :
    tsEq (.mk m1 a1 o1) (.mk m2 a2 o2) = true ↔
      m1 = m2 ∧ (∀ p ∈ o2, (lookupOp p.1 o1).isSome = true) ∧
        ∀ p ∈ o1, ∃ c2, lookupOp p.1 o2 = some c2 ∧ tsEq p.2 c2 = true := by
  simp only [tsEq, Bool.and_eq_true, beq_iff_eq, keysSub_iff, tsEqOps_iff,
    and_assoc]

/-! ### Claim C6 — direct op-map assignment -/

/-- C6, counterexample: with no existing entry for the op, `ops[op] =
child` succeeds even though the child's message differs from
`op(parent.msg)` — `__setitem__` never consults the parent message,
refuting the claim that such an assignment always fails. -/
theorem C6_counterexample :
    Timestamp.msg (Timestamp.new [])
        ≠ Op.apply .opSHA256 (Timestamp.msg (Timestamp.new [0])) ∧
      OpSet.setItem (Timestamp.ops (Timestamp.new [0])) .opSHA256
          (Timestamp.new [])
        = .ok [(.opSHA256, Timestamp.new [])] := by
  constructor
  · decide
  · rfl

/-- C6 (amended): `ops[op] = child` fails with the
inconsistent-child-message domain error iff the map already holds an
entry for `op` whose child's message differs from the new child's
message; otherwise the entry is inserted (key absent) or replaced
(existing child with equal message).  The check compares against the
existing entry, not against `op(parent.msg)`. -/
theorem C6_setItem_spec (m : List (Op × Timestamp)) (op : Op)
    (c : Timestamp) :
    ((∃ e, OpSet.setItem m op c = .error e) ↔
        ∃ ex, lookupOp op m = some ex ∧ ex.msg ≠ c.msg) ∧
      (lookupOp op m = none →
        OpSet.setItem m op c = .ok (m ++ [(op, c)])) ∧
      ∀ ex, lookupOp op m = some ex → ex.msg = c.msg →
        OpSet.setItem m op c = .ok (replaceOp m op c) := by
  unfold OpSet.setItem
  match hl : lookupOp op m with
  | none => simp
  | some ex =>
    by_cases hm : ex.msg = c.msg
    · simp [hm]
    · simp [hm]

/-- C6, witness: inserting into an empty map succeeds. -/
theorem C6_witness :
    OpSet.setItem [] .opSHA256 (Timestamp.new [5])
      = .ok [(.opSHA256, Timestamp.new [5])] :=
  (C6_setItem_spec [] .opSHA256 (Timestamp.new [5])).2.1 rfl

/-! ### Claim C3 — canonical node encoding -/

theorem sizeOf_insertionSort_ops (l : List (Op × Timestamp)) :
    sizeOf (List.insertionSort opPairLe l) = sizeOf l :=
  sizeOf_eq_of_perm (List.perm_insertionSort opPairLe l)

mutual

/-- The claim's canonical node encoding, defined from the spec's words
(C3 / spec §4.E) for comparison with `Timestamp.serialize`: fail
exactly when the node has no attestations and no operations;
otherwise, with attestations sorted (`n` of them) and operations
sorted by op (`m` of them), emit `n'` repetitions of
`0xff 0x00 attestation` (`n' = n` if `m > 0`, else `n − 1`), then
`m − 1` repetitions of `0xff` followed by an op encoding and its
child's recursive encoding, then the terminal item without a leading
`0xff` (the last op plus child if `m > 0`, else `0x00` plus the last
attestation). -/
def canonicalEncoding : Timestamp → Option Bytes
  | .mk _ atts ops =>
    let sa := sortAtts atts
    if sa.length + (sortOps ops).length = 0 then none
    else
      let nt := if 0 < (sortOps ops).length then sa else sa.dropLast
      let attBytes := nt.flatMap (fun a => 0xff :: 0x00 :: a.serialize)
      if (sortOps ops).length = 0 then
        match sa.getLast? with
        | some la => some (attBytes ++ 0x00 :: la.serialize)
        | none => none
      else
        match encodeEntries (sortOps ops) with
        | some bs =>
          some (attBytes ++ bs.dropLast.flatMap (fun b => 0xff :: b)
            ++ bs.getLast?.getD [])
        | none => none
termination_by t => sizeOf t
decreasing_by
  all_goals
    simp only [sortOps, Timestamp.mk.sizeOf_spec, sizeOf_insertionSort_ops]
    omega

/-- One op-map entry's encoding: the op followed by its child's
recursive encoding. -/
def encodeEntry : Op × Timestamp → Option Bytes
  | (op, c) =>
    match canonicalEncoding c with
    | some cb => some (op.serialize ++ cb)
    | none => none
termination_by p => sizeOf p
decreasing_by all_goals (first | (simp; omega) | simp)

/-- All entries' encodings, failing if any child fails. -/
def encodeEntries : List (Op × Timestamp) → Option (List Bytes)
  | [] => some []
  | p :: rest =>
    match encodeEntry p, encodeEntries rest with
    | some b, some bs => some (b :: bs)
    | _, _ => none
termination_by l => sizeOf l
decreasing_by all_goals (first | (simp; omega) | simp)

end

theorem length_sortAtts (l : List TimeAttestation) :
    (sortAtts l).length = l.length :=
  List.length_insertionSort _ _

theorem length_sortOps (l : List (Op × Timestamp)) :
    (sortOps l).length = l.length :=
  List.length_insertionSort _ _

theorem mem_sortOps (p : Op × Timestamp) (l : List (Op × Timestamp)) :
    p ∈ sortOps l ↔ p ∈ l :=
  (List.perm_insertionSort opPairLe l).mem_iff

theorem mem_sortAtts (a : TimeAttestation) (l : List TimeAttestation) :
    a ∈ sortAtts l ↔ a ∈ l :=
  (List.perm_insertionSort TimeAttestation.le l).mem_iff

/-- The guarded non-terminal prefix of the source equals the uniform
`dropLast` form of the claim. -/
theorem pre_eq_dropLast (l : List TimeAttestation) (f : TimeAttestation → Bytes) :
    (if 1 < l.length then l.dropLast.flatMap f else [])
      = l.dropLast.flatMap f := by
  by_cases h : 1 < l.length
  · simp [h]
  · match l with
    | [] => simp
    | [a] => simp
    | a :: b :: rest => simp at h

/-- A nonempty list's `flatMap` splits into the non-terminal prefix
and the last element. -/
theorem flatMap_eq_dropLast_getLast {α : Type} (l : List α) (f : α → Bytes)
    (hne : l ≠ []) :
    l.flatMap f = l.dropLast.flatMap f ++ f (l.getLast hne) := by
  conv_lhs => rw [← List.dropLast_append_getLast hne]
  rw [List.flatMap_append]
  simp

/-- The sorted-op loop of the source equals the claim's
`m − 1` separated entries plus terminal form, provided each child's
serialization already agrees with its canonical encoding. -/
theorem opsSorted_eq_assembled (p : Op × Timestamp)
    (so : List (Op × Timestamp))
    (hch : ∀ q ∈ p :: so, q.2.serialize = canonicalEncoding q.2) :
    serializeOpsSorted (p :: so)
      = match encodeEntries (p :: so) with
        | some bs =>
          some (bs.dropLast.flatMap (fun b => 0xff :: b)
            ++ bs.getLast?.getD [])
        | none => none := by
  induction so generalizing p with
  | nil =>
    obtain ⟨op, st⟩ := p
    have hc := hch (op, st) (List.mem_cons_self _ _)
    simp only at hc
    rw [serializeOpsSorted]
    simp only [encodeEntries, encodeEntry]
    rw [← hc]
    match hs : st.serialize with
    | some sb => simp [encodeEntries]
    | none => simp
  | cons q so2 ih =>
    obtain ⟨op, st⟩ := p
    have hc := hch (op, st) (List.mem_cons_self _ _)
    simp only at hc
    have ihq := ih q (fun r hr => hch r (List.mem_cons_of_mem _ hr))
    have hunf1 : serializeOpsSorted ((op, st) :: q :: so2)
        = (match st.serialize, serializeOpsSorted (q :: so2) with
           | some sb, some rb => some (0xff :: (op.serialize ++ sb) ++ rb)
           | _, _ => none) := by
      rw [serializeOpsSorted]
      all_goals simp
    have hunf2 : encodeEntries ((op, st) :: q :: so2)
        = (match encodeEntry (op, st), encodeEntries (q :: so2) with
           | some b, some bs => some (b :: bs)
           | _, _ => none) := by
      rw [encodeEntries]
    rw [hunf1, hunf2, encodeEntry, ← hc]
    match hs : st.serialize with
    | none => simp
    | some sb =>
      simp only
      rw [ihq]
      match he : encodeEntries (q :: so2) with
      | none => simp
      | some bs =>
        have hbs : bs ≠ [] := by
          rw [encodeEntries] at he
          match h1 : encodeEntry q, h2 : encodeEntries so2 with
          | some b, some bs2 =>
            rw [h1, h2] at he
            simp at he
            simp [← he]
          | some b, none => rw [h1, h2] at he; simp at he
          | none, _ => rw [h1] at he; simp at he
        obtain ⟨b0, bs2, rfl⟩ : ∃ b0 bs2, bs = b0 :: bs2 := by
          cases bs with
          | nil => exact absurd rfl hbs
          | cons b0 bs2 => exact ⟨b0, bs2, rfl⟩
        simp

/-- The source's guarded attestation prefix plus its separately
emitted last attestation equals one uniform pass over the whole sorted
list. -/
theorem attPrefix_split (sa : List TimeAttestation) :
    (if 1 < sa.length then
        sa.dropLast.flatMap (fun a => 0xff :: 0x00 :: a.serialize)
      else [])
      ++ (match sa.getLast? with
          | some la => 0xff :: 0x00 :: la.serialize
          | none => [])
      = sa.flatMap (fun a => 0xff :: 0x00 :: a.serialize) := by
  match sa with
  | [] => simp
  | a :: rest =>
    have hne : (a :: rest) ≠ [] := by simp
    rw [pre_eq_dropLast, List.getLast?_eq_getLast _ hne]
    simp only
    exact (flatMap_eq_dropLast_getLast _ _ hne).symm

/-- Bounded-size form of C3, for the strong induction. -/
theorem serialize_eq_canonical_aux :
    ∀ (n : Nat) (t : Timestamp), sizeOf t ≤ n →
      t.serialize = canonicalEncoding t := by
  intro n
  induction n using Nat.strong_induction_on with
  | _ n ih =>
    intro t hsz
    obtain ⟨m, atts, ops⟩ := t
    have hch : ∀ q ∈ sortOps ops, q.2.serialize = canonicalEncoding q.2 := by
      intro q hq
      have hq2 : q ∈ ops := (mem_sortOps q ops).mp hq
      have h1 : sizeOf q < sizeOf ops := List.sizeOf_lt_of_mem hq2
      have h2 : sizeOf q.2 < sizeOf q := by
        obtain ⟨x, y⟩ := q
        first | (simp; omega) | simp
      have h3 : sizeOf ops < sizeOf (Timestamp.mk m atts ops) := by
        first | (simp; omega) | simp
      exact ih (sizeOf q.2) (by omega) q.2 le_rfl
    cases hops : ops with
    | nil =>
      cases hatts : atts with
      | nil =>
        rw [Timestamp.serialize, canonicalEncoding]
        simp [sortAtts, sortOps, List.insertionSort]
      | cons a arest =>
        have hlen : (sortAtts (a :: arest)).length = arest.length + 1 := by
          rw [length_sortAtts]
          simp
        have hne : sortAtts (a :: arest) ≠ [] := by
          intro h
          rw [h] at hlen
          simp at hlen
        have hne0 : ¬ ((sortAtts (a :: arest)).length
            + (sortOps ([] : List (Op × Timestamp))).length = 0) := by
          rw [hlen]
          simp [sortOps, List.insertionSort]
        rw [Timestamp.serialize, canonicalEncoding]
        simp only [List.isEmpty_cons, List.isEmpty_nil, Bool.false_and,
          Bool.false_eq_true, if_false, if_neg hne0, sortOps,
          List.insertionSort, List.length_nil, Nat.lt_irrefl, if_false,
          if_pos rfl, pre_eq_dropLast, List.getLast?_eq_getLast _ hne]
        have h0 : ¬ ((sortAtts (a :: arest)).length + 0 = 0) := by
          rw [hlen]
          omega
        simp [h0]
        exact hne
    | cons o1 orest =>
      have hlenso : (sortOps (o1 :: orest)).length = orest.length + 1 := by
        rw [length_sortOps]
        simp
      obtain ⟨p, so2, hso⟩ : ∃ p so2, sortOps (o1 :: orest) = p :: so2 := by
        cases hq : sortOps (o1 :: orest) with
        | nil => rw [hq] at hlenso; simp at hlenso
        | cons p so2 => exact ⟨p, so2, rfl⟩
      have hasm := opsSorted_eq_assembled p so2 (by
        rw [← hso]
        intro q hq
        exact hch q (hops ▸ hq))
      have hne0 : ¬ ((sortAtts atts).length
          + (sortOps (o1 :: orest)).length = 0) := by
        rw [hlenso]
        omega
      have hnz : ¬ ((sortOps (o1 :: orest)).length = 0) := by
        rw [hlenso]
        omega
      have hpos : 0 < (sortOps (o1 :: orest)).length := by
        rw [hlenso]
        omega
      rw [Timestamp.serialize, canonicalEncoding]
      simp only [List.isEmpty_cons, Bool.and_false, Bool.false_and,
        Bool.false_eq_true, if_false, if_neg hne0, if_neg hnz,
        if_pos hpos, hso, hasm]
      match he : encodeEntries (p :: so2) with
      | none => simp
      | some bs =>
        simp only [List.length_cons]
        rw [if_neg (by omega : ¬ ((sortAtts atts).length
              + (so2.length + 1) = 0)),
          if_neg (by omega : ¬ (so2.length + 1 = 0)),
          if_pos (by omega : 0 < so2.length + 1)]
        rw [attPrefix_split (sortAtts atts)]
        simp [List.append_assoc]

/-- C3: `Timestamp.serialize` fails exactly when the node has no
attestations and no operations, and otherwise emits the claim's
canonical byte layout — `n'` repetitions of `0xff 0x00 attestation`
(`n' = n` when ops are present, else `n − 1`), then `m − 1`
repetitions of `0xff op child`, then the terminal item without a
leading `0xff` — as captured by `canonicalEncoding`, the claim's
formula rendered over sorted attestations and ops. -/
theorem C3_serialize_eq_canonical (t : Timestamp) :
    t.serialize = canonicalEncoding t :=
  serialize_eq_canonical_aux (sizeOf t) t le_rfl

/-! ### Claim C2 — round-trip -/

mutual

/-- The canonical reconstruction of a tree, as produced by
deserializing its serialization: attestations in sorted order, op
entries in sorted order, children canonicalized recursively. -/
def canonTs : Timestamp → Timestamp
  | .mk m a o => .mk m (sortAtts a) (canonOps (sortOps o))
termination_by t => sizeOf t
decreasing_by
  all_goals
    simp only [sortOps, Timestamp.mk.sizeOf_spec, sizeOf_insertionSort_ops]
    omega

/-- Entry-wise canonicalization. -/
def canonOps : List (Op × Timestamp) → List (Op × Timestamp)
  | [] => []
  | (op, c) :: rest => (op, canonTs c) :: canonOps rest
termination_by l => sizeOf l
decreasing_by all_goals (first | (simp; omega) | simp)

end

theorem canonOps_eq_map (l : List (Op × Timestamp)) :
    canonOps l = l.map (fun q => (q.1, canonTs q.2)) := by
  induction l with
  | nil => rw [canonOps]; rfl
  | cons p rest ih =>
    obtain ⟨op, c⟩ := p
    rw [canonOps, ih]
    rfl

/-- An op's serialization starts with its tag byte. -/
theorem Op.serialize_head (o : Op) :
    ∃ pp, Op.serialize o = o.tag :: pp := by
  cases o <;> exact ⟨_, rfl⟩

/-- Op tags collide with neither control byte (spec §6). -/
theorem Op.tag_ne_control (o : Op) : o.tag ≠ 0x00 ∧ o.tag ≠ 0xff := by
  cases o <;> simp [Op.tag]

/-- `serializeOpsSorted` output is nonempty. -/
theorem serializeOpsSorted_ne_nil {es : List (Op × Timestamp)} {eb : Bytes}
    (h : serializeOpsSorted es = some eb) : eb ≠ [] := by
  match es with
  | [] => rw [serializeOpsSorted] at h; exact absurd h (by simp)
  | [(op, st)] =>
    rw [serializeOpsSorted] at h
    match hs : st.serialize with
    | some sb =>
      rw [hs] at h
      simp only [Option.some.injEq] at h
      obtain ⟨pp, hpp⟩ := Op.serialize_head op
      rw [← h, hpp]
      simp
    | none => rw [hs] at h; exact absurd h (by simp)
  | (op, st) :: q :: es2 =>
    have hunf : serializeOpsSorted ((op, st) :: q :: es2)
        = (match st.serialize, serializeOpsSorted (q :: es2) with
           | some sb, some rb => some (0xff :: (op.serialize ++ sb) ++ rb)
           | _, _ => none) := by
      rw [serializeOpsSorted]
      all_goals simp
    rw [hunf] at h
    match h1 : st.serialize, h2 : serializeOpsSorted (q :: es2) with
    | some sb, some rb =>
      rw [h1, h2] at h
      simp only [Option.some.injEq] at h
      rw [← h]
      simp
    | some sb, none => rw [h1, h2] at h; exact absurd h (by simp)
    | none, _ => rw [h1] at h; exact absurd h (by simp)

/-- Each entry encoding produced by `encodeEntries` is nonempty. -/
theorem encodeEntries_entries_ne_nil :
    ∀ (es : List (Op × Timestamp)) (bs : List Bytes),
      encodeEntries es = some bs → ∀ x ∈ bs, x ≠ [] := by
  intro es
  induction es with
  | nil =>
    intro bs h x hx
    rw [encodeEntries] at h
    simp only [Option.some.injEq] at h
    rw [← h] at hx
    simp at hx
  | cons p rest ih =>
    intro bs h x hx
    rw [encodeEntries] at h
    match h1 : encodeEntry p, h2 : encodeEntries rest with
    | some b, some bs2 =>
      rw [h1, h2] at h
      simp only [Option.some.injEq] at h
      rw [← h] at hx
      rcases List.mem_cons.mp hx with rfl | htl
      · obtain ⟨op, c⟩ := p
        rw [encodeEntry] at h1
        match h3 : canonicalEncoding c with
        | some cb =>
          rw [h3] at h1
          simp only [Option.some.injEq] at h1
          rw [← h1]
          obtain ⟨pp, hpp⟩ := Op.serialize_head op
          rw [hpp]
          simp
        | none => rw [h3] at h1; exact absurd h1 (by simp)
      · exact ih bs2 h2 x htl
    | some b, none => rw [h1, h2] at h; exact absurd h (by simp)
    | none, _ => rw [h1] at h; exact absurd h (by simp)

/-- A serialized node is nonempty. -/
theorem serialize_ne_nil {t : Timestamp} {b : Bytes}
    (h : t.serialize = some b) : b ≠ [] := by
  rw [C3_serialize_eq_canonical] at h
  obtain ⟨m, atts, ops⟩ := t
  rw [canonicalEncoding] at h
  by_cases h0 : (sortAtts atts).length + (sortOps ops).length = 0
  · rw [if_pos h0] at h
    exact absurd h (by simp)
  · rw [if_neg h0] at h
    by_cases hm : (sortOps ops).length = 0
    · rw [if_pos hm] at h
      match hl : (sortAtts atts).getLast? with
      | some la =>
        rw [hl] at h
        simp only [Option.some.injEq] at h
        rw [← h]
        simp
      | none => rw [hl] at h; exact absurd h (by simp)
    · rw [if_neg hm] at h
      match he : encodeEntries (sortOps ops) with
      | some bs =>
        rw [he] at h
        simp only [Option.some.injEq] at h
        -- the ops suffix of the encoding is nonempty
        obtain ⟨p, so2, hso⟩ : ∃ p so2, sortOps ops = p :: so2 := by
          cases hq : sortOps ops with
          | nil => rw [hq] at hm; simp at hm
          | cons p so2 => exact ⟨p, so2, rfl⟩
        rw [hso] at he
        have hbs : bs ≠ [] := by
          rw [encodeEntries] at he
          match h1 : encodeEntry p, h2 : encodeEntries so2 with
          | some b1, some bs2 =>
            rw [h1, h2] at he
            simp only [Option.some.injEq] at he
            rw [← he]
            simp
          | some b1, none => rw [h1, h2] at he; exact absurd he (by simp)
          | none, _ => rw [h1] at he; exact absurd he (by simp)
        rw [← h]
        intro hcontra
        simp only [List.append_eq_nil] at hcontra
        obtain ⟨⟨h3, h4⟩, h5⟩ := hcontra
        rw [List.getLast?_eq_getLast _ hbs] at h5
        simp only [Option.getD_some] at h5
        exact encodeEntries_entries_ne_nil _ _ he _
          (List.getLast_mem hbs) h5
      | none => rw [he] at h; exact absurd h (by simp)

/-- Every serializable entry list has at least one attestating byte
per attestation in its prefix encoding. -/
theorem attFlat_length (as : List TimeAttestation) :
    as.length ≤ (as.flatMap (fun a => 0xff :: 0x00 :: a.serialize)).length := by
  induction as with
  | nil => simp
  | cons a rest ih =>
    simp only [List.flatMap_cons, List.length_append, List.length_cons]
    omega

/-- Folding Python `set.add` over fresh distinct elements appends them
in order. -/
theorem foldl_setAdd_fresh :
    ∀ (l : List TimeAttestation) (init : List TimeAttestation),
      l.Nodup → (∀ x ∈ l, x ∉ init) →
      l.foldl setAdd init = init ++ l := by
  intro l
  induction l with
  | nil => simp
  | cons a rest ih =>
    intro init hnd hf
    simp only [List.foldl_cons]
    have ha : a ∉ init := hf a (List.mem_cons_self _ _)
    have hadd : setAdd init a = init ++ [a] := by
      simp [setAdd, ha]
    rw [hadd, ih (init ++ [a]) (List.nodup_cons.mp hnd).2]
    · simp
    · intro x hx
      simp only [List.mem_append, List.mem_singleton]
      rintro (h1 | rfl)
      · exact hf x (List.mem_cons_of_mem _ hx) h1
      · exact (List.nodup_cons.mp hnd).1 hx

theorem serializeOpsSorted_isSome :
    ∀ es : List (Op × Timestamp), es ≠ [] →
      (∀ q ∈ es, (q.2.serialize).isSome = true) →
      (serializeOpsSorted es).isSome = true := by
  intro es
  induction es with
  | nil => intro h; exact absurd rfl h
  | cons p rest ih =>
    intro _ hq
    obtain ⟨op, st⟩ := p
    have hst := hq (op, st) (List.mem_cons_self _ _)
    simp only at hst
    cases rest with
    | nil =>
      rw [serializeOpsSorted]
      match hs : st.serialize with
      | some sb => simp
      | none => rw [hs] at hst; simp at hst
    | cons q rest2 =>
      have hunf : serializeOpsSorted ((op, st) :: q :: rest2)
          = (match st.serialize, serializeOpsSorted (q :: rest2) with
             | some sb, some rb => some (0xff :: (op.serialize ++ sb) ++ rb)
             | _, _ => none) := by
        rw [serializeOpsSorted]
        all_goals simp
      rw [hunf]
      have hrec := ih (by simp)
        (fun r hr => hq r (List.mem_cons_of_mem _ hr))
      match h1 : st.serialize, h2 : serializeOpsSorted (q :: rest2) with
      | some sb, some rb => simp
      | some sb, none => rw [h2] at hrec; simp at hrec
      | none, _ => rw [h1] at hst; simp at hst

/-- A recursively non-empty tree serializes successfully. -/
theorem serialize_isSome_of_recNE :
    ∀ (n : Nat) (t : Timestamp), sizeOf t ≤ n → recNE t = true →
      (t.serialize).isSome = true := by
  intro n
  induction n using Nat.strong_induction_on with
  | _ n ih =>
    intro t hsz hne
    obtain ⟨m, atts, ops⟩ := t
    rw [recNE_iff] at hne
    obtain ⟨hroot, hkids⟩ := hne
    cases hops : ops with
    | nil =>
      have hatts : atts ≠ [] := by
        rcases hroot with h | h
        · exact h
        · rw [hops] at h; exact absurd rfl h
      have hsane : sortAtts atts ≠ [] := by
        intro h
        have := length_sortAtts atts
        rw [h] at this
        simp at this
        exact hatts (List.length_eq_zero.mp this.symm)
      rw [Timestamp.serialize]
      simp [List.getLast?_eq_getLast _ hsane, List.isEmpty_iff, hatts]
    | cons o1 orest =>
      subst hops
      have hsome : (serializeOpsSorted (sortOps (o1 :: orest))).isSome
          = true := by
        apply serializeOpsSorted_isSome
        · intro h
          have := length_sortOps (o1 :: orest)
          rw [h] at this
          simp at this
        · intro q hq
          have hq2 : q ∈ o1 :: orest := (mem_sortOps _ _).mp hq
          have h1 : sizeOf q < sizeOf (o1 :: orest) :=
            List.sizeOf_lt_of_mem hq2
          have h2 : sizeOf q.2 < sizeOf q := by
            obtain ⟨x, y⟩ := q
            first | (simp; omega) | simp
          have h3 : sizeOf (o1 :: orest)
              < sizeOf (Timestamp.mk m atts (o1 :: orest)) := by
            first | (simp; omega) | simp
          exact ih (sizeOf q.2) (by omega) q.2 le_rfl (hkids q hq2)
      rw [Timestamp.serialize]
      match hs : serializeOpsSorted (sortOps (o1 :: orest)) with
      | some ob => simp [hs]
      | none => rw [hs] at hsome; simp at hsome

theorem lookupOp_sortOps (op : Op) (o : List (Op × Timestamp))
    (hnd : (o.map Prod.fst).Nodup) :
    lookupOp op (sortOps o) = lookupOp op o := by
  have hperm : (sortOps o).Perm o := List.perm_insertionSort _ _
  have hkeys : ((sortOps o).map Prod.fst).Perm (o.map Prod.fst) :=
    hperm.map _
  have hnd2 : ((sortOps o).map Prod.fst).Nodup :=
    (hkeys.nodup_iff).mpr hnd
  match hl : lookupOp op o with
  | some c =>
    exact mem_lookupOp hnd2 (hperm.mem_iff.mpr (lookupOp_mem hl))
  | none =>
    rw [lookupOp_eq_none_iff] at hl ⊢
    intro hmem
    exact hl (hkeys.mem_iff.mp hmem)

theorem lookupOp_canonOps (op : Op) (l : List (Op × Timestamp)) :
    lookupOp op (canonOps l) = (lookupOp op l).map canonTs := by
  induction l with
  | nil => rw [canonOps]; simp [lookupOp]
  | cons p rest ih =>
    obtain ⟨o, c⟩ := p
    rw [canonOps]
    by_cases he : o = op
    · subst he; simp [lookupOp]
    · simp [lookupOp, he, ih]

/-- The canonical reconstruction is `eqFull`-equal to the original
tree. -/
theorem eqFull_canon :
    ∀ (n : Nat) (t : Timestamp), sizeOf t ≤ n → wf t = true →
      eqFull (canonTs t) t = true := by
  intro n
  induction n using Nat.strong_induction_on with
  | _ n ih =>
    intro t hsz hwf
    obtain ⟨m, atts, ops⟩ := t
    rw [wf_iff] at hwf
    obtain ⟨hnda, hndk, hkids⟩ := hwf
    rw [canonTs, eqFull]
    simp only [Bool.and_eq_true, beq_iff_eq, attSetEq_iff, keysSub_iff,
      eqFullOps_iff]
    refine ⟨⟨⟨by simp, fun x => by rw [mem_sortAtts]⟩, ?_⟩, ?_⟩
    · intro p hp
      rw [lookupOp_canonOps, lookupOp_sortOps _ _ hndk]
      have : (lookupOp p.1 ops).isSome = true := by
        rw [lookupOp_isSome_iff]
        exact List.mem_map.mpr ⟨p, hp, rfl⟩
      match hl : lookupOp p.1 ops with
      | some c => simp
      | none => rw [hl] at this; simp at this
    · intro q hq
      rw [canonOps_eq_map] at hq
      obtain ⟨⟨op, c⟩, hmem, hpair⟩ := List.mem_map.mp hq
      have hmem2 : (op, c) ∈ ops := (mem_sortOps _ _).mp hmem
      refine ⟨c, ?_, ?_⟩
      · rw [← hpair]
        exact mem_lookupOp hndk hmem2
      · rw [← hpair]
        simp only
        have h1 : sizeOf (op, c) < sizeOf ops :=
          List.sizeOf_lt_of_mem hmem2
        have h2 : sizeOf c < sizeOf (op, c) := by
          first | (simp; omega) | simp
        have h3 : sizeOf ops < sizeOf (Timestamp.mk m atts ops) := by
          first | (simp; omega) | simp
        exact ih (sizeOf c) (by omega) c le_rfl (hkids (op, c) hmem2).2

theorem lookupOp_append (key : Op) (l1 l2 : List (Op × Timestamp)) :
    lookupOp key (l1 ++ l2)
      = match lookupOp key l1 with
        | some c => some c
        | none => lookupOp key l2 := by
  induction l1 with
  | nil => simp [lookupOp]
  | cons p rest ih =>
    obtain ⟨o, c⟩ := p
    by_cases he : o = key
    · subst he; simp [lookupOp]
    · simp [lookupOp, he, ih]

theorem dsNode_succ (f : Nat) (msg : Bytes) (tag : Nat) (rest : Bytes) :
    dsNode (f + 1) msg (tag :: rest) = dsTags f msg [] [] tag rest := by
  rw [dsNode.eq_def]

theorem dsTags_ff (f : Nat) (msg : Bytes) (atts : List TimeAttestation)
    (ops : List (Op × Timestamp)) (kind : Nat) (s2 : Bytes) :
    dsTags (f + 1) msg atts ops 0xff (kind :: s2)
      = match dsItem f msg atts ops kind s2 with
        | none => none
        | some (atts2, ops2, s3) =>
          match s3 with
          | [] => none
          | tag2 :: s4 => dsTags f msg atts2 ops2 tag2 s4 := by
  rw [dsTags.eq_def]
  simp

theorem dsTags_term (f : Nat) (msg : Bytes) (atts : List TimeAttestation)
    (ops : List (Op × Timestamp)) (tag : Nat) (s : Bytes)
    (h : tag ≠ 0xff) :
    dsTags (f + 1) msg atts ops tag s
      = match dsItem f msg atts ops tag s with
        | none => none
        | some (atts2, ops2, s3) => some (.mk msg atts2 ops2, s3) := by
  rw [dsTags.eq_def]
  simp [h]

theorem dsItem_att (f : Nat) (msg : Bytes) (atts : List TimeAttestation)
    (ops : List (Op × Timestamp)) (s : Bytes) :
    dsItem (f + 1) msg atts ops 0x00 s
      = match TimeAttestation.deserialize s with
        | none => none
        | some (a, r) => some (setAdd atts a, ops, r) := by
  rw [dsItem.eq_def]
  simp

theorem dsItem_op (f : Nat) (msg : Bytes) (atts : List TimeAttestation)
    (ops : List (Op × Timestamp)) (kind : Nat) (s : Bytes)
    (h : kind ≠ 0x00) :
    dsItem (f + 1) msg atts ops kind s
      = match Op.deserializeFromTag kind s with
        | none => none
        | some (op, r) =>
          match dsNode f (op.apply msg) r with
          | none => none
          | some (child, r2) =>
            match OpSet.setItem ops op child with
            | .error _ => none
            | .ok ops2 => some (atts, ops2, r2) := by
  rw [dsItem.eq_def]
  simp [h]

/-- Parsing a run of `0xff 0x00 attestation` groups accumulates the
attestations (via `set.add`) and hands the remaining stream to the
loop, costing one fuel step per group. -/
theorem dsTags_attRun :
    ∀ (as : List TimeAttestation) (fuel : Nat) (msg : Bytes)
      (atts : List TimeAttestation) (ops : List (Op × Timestamp))
      (t0 : Nat) (s0 : Bytes) (tag : Nat) (s : Bytes),
      tag :: s = as.flatMap (fun a => 0xff :: 0x00 :: a.serialize)
        ++ t0 :: s0 →
      fuel ≥ as.length + 1 →
      dsTags fuel msg atts ops tag s
        = dsTags (fuel - as.length) msg (as.foldl setAdd atts) ops t0 s0 := by
  intro as
  induction as with
  | nil =>
    intro fuel msg atts ops t0 s0 tag s hstream hfuel
    simp only [List.flatMap_nil, List.nil_append, List.cons.injEq] at hstream
    obtain ⟨rfl, rfl⟩ := hstream
    simp
  | cons a as2 ih =>
    intro fuel msg atts ops t0 s0 tag s hstream hfuel
    simp only [List.flatMap_cons, List.cons_append, List.append_assoc,
      List.cons.injEq] at hstream
    obtain ⟨rfl, hs⟩ := hstream
    obtain ⟨f, rfl⟩ : ∃ f, fuel = f + 1 := ⟨fuel - 1, by omega⟩
    have hf1 : f ≥ as2.length + 1 := by
      simp only [List.length_cons] at hfuel
      omega
    obtain ⟨g, rfl⟩ : ∃ g, f = g + 1 := ⟨f - 1, by omega⟩
    subst hs
    rw [dsTags_ff, dsItem_att]
    rw [show a.serialize ++ ((as2.flatMap fun a => 0xff :: 0x00 ::
        a.serialize) ++ t0 :: s0) = a.serialize ++ ((as2.flatMap fun a =>
        0xff :: 0x00 :: a.serialize) ++ t0 :: s0) from rfl,
      TimeAttestation.deserialize_roundtrip]
    simp only
    match hsp : as2.flatMap (fun a => 0xff :: 0x00 :: a.serialize)
        ++ t0 :: s0 with
    | [] =>
      exact absurd hsp (by simp)
    | tag2 :: s4 =>
      show dsTags (g + 1) msg (setAdd atts a) ops tag2 s4
          = dsTags (g + 1 + 1 - (a :: as2).length) msg
            (List.foldl setAdd atts (a :: as2)) ops t0 s0
      rw [ih (g + 1) msg (setAdd atts a) ops t0 s0 tag2 s4
        hsp.symm hf1]
      have heq : g + 1 - as2.length = g + 1 + 1 - (a :: as2).length := by
        simp only [List.length_cons]
        omega
      rw [heq]
      simp

/-- Parsing the sorted op entries: each non-terminal entry consumes a
`0xff`, an op encoding and a recursively parsed child; the terminal
entry closes the node.  Children are stored via `ops[op] = stamp` and,
with fresh keys, append in order. -/
theorem dsTags_opRun :
    ∀ (es : List (Op × Timestamp)) (msg : Bytes),
      (∀ q ∈ es, q.2.msg = q.1.apply msg ∧ wf q.2 = true) →
      (∀ q ∈ es, ∀ cb, q.2.serialize = some cb →
        ∀ fuel rest, fuel ≥ 3 * cb.length + 1 →
          dsNode fuel q.2.msg (cb ++ rest) = some (canonTs q.2, rest)) →
      (es.map Prod.fst).Nodup →
      ∀ eb, serializeOpsSorted es = some eb →
      ∀ fuel atts0 ops0 tag s rest,
        tag :: s = eb ++ rest →
        fuel ≥ 3 * eb.length →
        (∀ q ∈ es, lookupOp q.1 ops0 = none) →
        dsTags fuel msg atts0 ops0 tag s
          = some (.mk msg atts0
              (ops0 ++ es.map (fun q => (q.1, canonTs q.2))), rest) := by
  intro es
  induction es with
  | nil =>
    intro msg _ _ _ eb heb
    rw [serializeOpsSorted] at heb
    exact absurd heb (by simp)
  | cons q es2 ih =>
    intro msg hkid hpar hnd eb heb fuel atts0 ops0 tag s rest hstream
      hfuel hfresh
    obtain ⟨op, st⟩ := q
    have hmsg := (hkid (op, st) (List.mem_cons_self _ _)).1
    simp only at hmsg
    obtain ⟨pp, hpp⟩ := Op.serialize_head op
    have htagop := Op.tag_ne_control op
    cases es2 with
    | nil =>
      rw [serializeOpsSorted] at heb
      match hsb : st.serialize with
      | none => rw [hsb] at heb; exact absurd heb (by simp)
      | some sb =>
        rw [hsb] at heb
        simp only [Option.some.injEq] at heb
        subst heb
        have hlen : (op.serialize ++ sb).length ≥ 1 + sb.length := by
          rw [hpp]
          simp
          omega
        obtain ⟨g, rfl⟩ : ∃ g, fuel = g + 2 := ⟨fuel - 2, by omega⟩
        rw [hpp] at hstream
        simp only [List.cons_append, List.append_assoc,
          List.cons.injEq] at hstream
        obtain ⟨rfl, rfl⟩ := hstream
        rw [show g + 2 = (g + 1) + 1 from rfl,
          dsTags_term _ _ _ _ _ _ htagop.2, dsItem_op _ _ _ _ _ _ htagop.1]
        rw [Op.deserialize_serialize op (sb ++ rest)
          (pp ++ (sb ++ rest)) (by rw [hpp]; simp)]
        simp only
        rw [← hmsg]
        rw [hpar (op, st) (List.mem_cons_self _ _) sb hsb g rest
          (by
            rw [hpp] at hfuel
            simp at hfuel
            omega)]
        simp only
        rw [show OpSet.setItem ops0 op (canonTs st)
            = .ok (ops0 ++ [(op, canonTs st)]) from by
          unfold OpSet.setItem
          rw [hfresh (op, st) (List.mem_cons_self _ _)]]
        simp
    | cons q2 es3 =>
      have hunf : serializeOpsSorted ((op, st) :: q2 :: es3)
          = (match st.serialize, serializeOpsSorted (q2 :: es3) with
             | some sb, some rb => some (0xff :: (op.serialize ++ sb) ++ rb)
             | _, _ => none) := by
        rw [serializeOpsSorted]
        all_goals simp
      rw [hunf] at heb
      match hsb : st.serialize, heb2 : serializeOpsSorted (q2 :: es3) with
      | none, _ => rw [hsb] at heb; exact absurd heb (by simp)
      | some sb, none => rw [hsb, heb2] at heb; exact absurd heb (by simp)
      | some sb, some eb2 =>
        rw [hsb, heb2] at heb
        simp only [Option.some.injEq] at heb
        subst heb
        have hlen : (0xff :: (op.serialize ++ sb) ++ eb2).length
            ≥ 2 + sb.length + eb2.length := by
          rw [hpp]
          simp
          omega
        obtain ⟨g, rfl⟩ : ∃ g, fuel = g + 2 := ⟨fuel - 2, by omega⟩
        rw [hpp] at hstream
        simp only [List.cons_append, List.append_assoc,
          List.cons.injEq] at hstream
        obtain ⟨rfl, rfl⟩ := hstream
        rw [show g + 2 = (g + 1) + 1 from rfl, dsTags_ff,
          dsItem_op _ _ _ _ _ _ htagop.1]
        rw [Op.deserialize_serialize op (sb ++ (eb2 ++ rest))
          (pp ++ (sb ++ (eb2 ++ rest))) (by rw [hpp]; simp)]
        simp only
        rw [← hmsg]
        rw [hpar (op, st) (List.mem_cons_self _ _) sb hsb g (eb2 ++ rest)
          (by
            rw [hpp] at hfuel
            simp at hfuel
            omega)]
        simp only
        rw [show OpSet.setItem ops0 op (canonTs st)
            = .ok (ops0 ++ [(op, canonTs st)]) from by
          unfold OpSet.setItem
          rw [hfresh (op, st) (List.mem_cons_self _ _)]]
        simp only
        have hne2 : eb2 ≠ [] := serializeOpsSorted_ne_nil heb2
        match hsp : eb2 ++ rest with
        | [] =>
          rw [List.append_eq_nil] at hsp
          exact absurd hsp.1 hne2
        | tag2 :: s4 =>
          show dsTags (g + 1) msg atts0 (ops0 ++ [(op, canonTs st)])
              tag2 s4 = _
          rw [ih msg
            (fun r hr => hkid r (List.mem_cons_of_mem _ hr))
            (fun r hr => hpar r (List.mem_cons_of_mem _ hr))
            (by
              rw [List.map_cons, List.nodup_cons] at hnd
              exact hnd.2)
            eb2 heb2 (g + 1) atts0 (ops0 ++ [(op, canonTs st)])
            tag2 s4 rest hsp.symm
            (by
              rw [hpp] at hfuel
              simp at hfuel
              omega)
            (fun r hr => by
              rw [lookupOp_append, hfresh r (List.mem_cons_of_mem _ hr)]
              have hrne : r.1 ≠ op := by
                simp only [List.map_cons, List.nodup_cons] at hnd
                intro hcontra
                exact hnd.1 (List.mem_map.mpr ⟨r, hr, hcontra⟩)
              simp [lookupOp, Ne.symm hrne])]
          simp

/-- Main parsing lemma: deserializing a well-formed tree's
serialization from the front of any stream yields its canonical
reconstruction and the unconsumed remainder. -/
theorem dsNode_roundtrip :
    ∀ (n : Nat) (t : Timestamp), sizeOf t ≤ n → wf t = true →
      ∀ b, t.serialize = some b →
      ∀ fuel rest, fuel ≥ 3 * b.length + 1 →
        dsNode fuel t.msg (b ++ rest) = some (canonTs t, rest) := by
  intro n
  induction n using Nat.strong_induction_on with
  | _ n ih =>
    intro t hsz hwf b hser fuel rest hfuel
    obtain ⟨m, atts, ops⟩ := t
    rw [wf_iff] at hwf
    obtain ⟨hnda, hndk, hkids⟩ := hwf
    have hsanodup : (sortAtts atts).Nodup :=
      (List.perm_insertionSort TimeAttestation.le atts).nodup_iff.mpr hnda
    cases hops : ops with
    | nil =>
      subst hops
      have hatts : atts ≠ [] := by
        intro h
        subst h
        rw [Timestamp.serialize] at hser
        simp at hser
      have hsane : sortAtts atts ≠ [] := by
        intro h
        have := length_sortAtts atts
        rw [h] at this
        simp at this
        exact hatts (List.length_eq_zero.mp this.symm)
      rw [Timestamp.serialize] at hser
      rw [if_neg (by simp [List.isEmpty_iff, hatts] : ¬ (atts.isEmpty
        && List.isEmpty ([] : List (Op × Timestamp))) = true)] at hser
      simp only [List.getLast?_eq_getLast _ hsane, pre_eq_dropLast,
        Option.some.injEq] at hser
      subst hser
      -- parse: the non-terminal attestations, then the terminal one
      obtain ⟨f, rfl⟩ : ∃ f, fuel = f + 1 := ⟨fuel - 1, by omega⟩
      have hlenA := attFlat_length (sortAtts atts).dropLast
      have hblen : ((sortAtts atts).dropLast.flatMap
          (fun a => 0xff :: 0x00 :: a.serialize)
          ++ 0x00 :: ((sortAtts atts).getLast hsane).serialize).length
          ≥ (sortAtts atts).dropLast.length + 1 := by
        simp only [List.length_append, List.length_cons]
        omega
      match hsp : (sortAtts atts).dropLast.flatMap
          (fun a => 0xff :: 0x00 :: a.serialize)
          ++ 0x00 :: (((sortAtts atts).getLast hsane).serialize
            ++ rest) with
      | [] => exact absurd hsp (by simp)
      | tag :: s =>
        have hb : ((sortAtts atts).dropLast.flatMap
            (fun a => 0xff :: 0x00 :: a.serialize)
            ++ 0x00 :: ((sortAtts atts).getLast hsane).serialize)
            ++ rest = tag :: s := by
          rw [← hsp]
          simp
        rw [Timestamp.msg, hb, dsNode_succ]
        rw [dsTags_attRun (sortAtts atts).dropLast f m [] [] 0x00
          (((sortAtts atts).getLast hsane).serialize ++ rest) tag s
          hsp.symm (by omega)]
        obtain ⟨g, hg⟩ : ∃ g, f - (sortAtts atts).dropLast.length
            = g + 1 + 1 := ⟨f - (sortAtts atts).dropLast.length - 2, by
          omega⟩
        rw [hg, dsTags_term _ _ _ _ _ _ (by omega), dsItem_att,
          TimeAttestation.deserialize_roundtrip]
        simp only
        -- the accumulated attestations are exactly the sorted list
        have hfold : (sortAtts atts).dropLast.foldl setAdd ([] :
            List TimeAttestation) = (sortAtts atts).dropLast := by
          rw [foldl_setAdd_fresh _ _
            (hsanodup.sublist (List.dropLast_sublist _))
            (by simp)]
          simp
        have hlast : ((sortAtts atts).getLast hsane)
            ∉ (sortAtts atts).dropLast := by
          intro hmem
          have hnd2 := hsanodup
          rw [← List.dropLast_append_getLast hsane] at hnd2
          rw [List.nodup_append] at hnd2
          exact hnd2.2.2 hmem (List.mem_singleton_self _)
        rw [hfold]
        rw [show setAdd (sortAtts atts).dropLast
            ((sortAtts atts).getLast hsane)
            = (sortAtts atts).dropLast
              ++ [(sortAtts atts).getLast hsane] from by
          simp [setAdd, hlast]]
        rw [List.dropLast_append_getLast hsane]
        rw [canonTs]
        rw [show canonOps (sortOps ([] : List (Op × Timestamp)))
            = [] from by rw [canonOps_eq_map]; rfl]
    | cons o1 orest =>
      subst hops
      rw [Timestamp.serialize] at hser
      rw [if_neg (by simp : ¬ (atts.isEmpty
        && (o1 :: orest).isEmpty) = true)] at hser
      simp only at hser
      match hob : serializeOpsSorted (sortOps (o1 :: orest)) with
      | none => rw [hob] at hser; exact absurd hser (by simp)
      | some ob =>
        rw [hob] at hser
        simp only [Option.some.injEq] at hser
        rw [attPrefix_split (sortAtts atts)] at hser
        subst hser
        have hobne : ob ≠ [] := serializeOpsSorted_ne_nil hob
        obtain ⟨e0, etail, rfl⟩ : ∃ e0 etail, ob = e0 :: etail := by
          cases ob with
          | nil => exact absurd rfl hobne
          | cons e0 etail => exact ⟨e0, etail, rfl⟩
        obtain ⟨f, rfl⟩ : ∃ f, fuel = f + 1 := ⟨fuel - 1, by omega⟩
        have hlenA := attFlat_length (sortAtts atts)
        match hsp : (sortAtts atts).flatMap
            (fun a => 0xff :: 0x00 :: a.serialize)
            ++ e0 :: (etail ++ rest) with
        | [] => exact absurd hsp (by simp)
        | tag :: s =>
          have hb : ((sortAtts atts).flatMap
              (fun a => 0xff :: 0x00 :: a.serialize)
              ++ e0 :: etail) ++ rest = tag :: s := by
            rw [← hsp]
            simp
          rw [Timestamp.msg, hb, dsNode_succ]
          rw [dsTags_attRun (sortAtts atts) f m [] [] e0
            (etail ++ rest) tag s hsp.symm (by
              simp only [List.length_append, List.length_cons] at hfuel
              omega)]
          have hfold : (sortAtts atts).foldl setAdd ([] :
              List TimeAttestation) = sortAtts atts := by
            rw [foldl_setAdd_fresh _ _ hsanodup (by simp)]
            simp
          rw [hfold]
          rw [dsTags_opRun (sortOps (o1 :: orest)) m
            (fun q hq => by
              have hq2 := (mem_sortOps _ _).mp hq
              have := hkids q hq2
              exact ⟨this.1, this.2⟩)
            (fun q hq cb hcb fuel2 rest2 hf2 => by
              have hq2 := (mem_sortOps _ _).mp hq
              have h1 : sizeOf q < sizeOf (o1 :: orest) :=
                List.sizeOf_lt_of_mem hq2
              have h2 : sizeOf q.2 < sizeOf q := by
                obtain ⟨x, y⟩ := q
                first | (simp; omega) | simp
              have h3 : sizeOf (o1 :: orest)
                  < sizeOf (Timestamp.mk m atts (o1 :: orest)) := by
                first | (simp; omega) | simp
              exact ih (sizeOf q.2) (by omega) q.2 le_rfl
                (hkids q hq2).2 cb hcb fuel2 rest2 hf2)
            (((List.perm_insertionSort opPairLe
              (o1 :: orest)).map Prod.fst).nodup_iff.mpr hndk)
            (e0 :: etail) hob (f - (sortAtts atts).length)
            (sortAtts atts) [] e0 (etail ++ rest) rest rfl
            (by
              simp only [List.length_append, List.length_cons] at hfuel ⊢
              omega)
            (fun q hq => rfl)]
          rw [canonTs, canonOps_eq_map]
          simp

/-- C2: round-trip — for every well-formed timestamp in which every
node has at least one attestation or one operation, deserializing the
bytes produced by `serialize` with initial message `msg` yields a
timestamp equal to the original (same msg, same attestation sets, same
op maps, recursively), consuming the whole stream. -/
theorem C2_roundtrip (t : Timestamp) (hwf : wf t = true)
    (hne : recNE t = true) :
    ∃ b t2, t.serialize = some b ∧
      Timestamp.deserialize b t.msg = some (t2, []) ∧
      eqFull t2 t = true := by
  have hsome := serialize_isSome_of_recNE (sizeOf t) t le_rfl hne
  match hser : t.serialize with
  | none => rw [hser] at hsome; simp at hsome
  | some b =>
    refine ⟨b, canonTs t, rfl, ?_, eqFull_canon (sizeOf t) t le_rfl hwf⟩
    unfold Timestamp.deserialize
    have hmain := dsNode_roundtrip (sizeOf t) t le_rfl hwf b hser
      (3 * b.length + 3) [] (by omega)
    simpa using hmain

/-- C2, witness: a one-attestation tree round-trips. -/
theorem C2_witness :
    wf (Timestamp.mk [0xde] [⟨[1]⟩] []) = true ∧
      recNE (Timestamp.mk [0xde] [⟨[1]⟩] []) = true ∧
      ∃ b t2, (Timestamp.mk [0xde] [⟨[1]⟩] []).serialize = some b ∧
        Timestamp.deserialize b [0xde] = some (t2, []) ∧
        eqFull t2 (Timestamp.mk [0xde] [⟨[1]⟩] []) = true := by
  have h1 : wf (Timestamp.mk [0xde] [⟨[1]⟩] []) = true := by
    simp [wf, wfOps, nodupAtts, nodupKeys]
  have h2 : recNE (Timestamp.mk [0xde] [⟨[1]⟩] []) = true := by
    simp [recNE, recNEOps]
  exact ⟨h1, h2, C2_roundtrip (Timestamp.mk [0xde] [⟨[1]⟩] []) h1 h2⟩

/-! ### Claim C4 — canonical serialization over equality -/

/-- C4, counterexample: two trees that are equal under the code's
`Timestamp.__eq__` (which ignores attestations) but serialize to
different bytes, because their attestation sets differ. -/
theorem C4_counterexample :
    tsEq (.mk [1] [⟨[0]⟩] []) (.mk [1] [⟨[1]⟩] []) = true ∧
      Timestamp.serialize (.mk [1] [⟨[0]⟩] [])
        ≠ Timestamp.serialize (.mk [1] [⟨[1]⟩] []) := by
  constructor
  · simp [tsEq, keysSub, tsEqOps]
  · simp [Timestamp.serialize, sortAtts, List.insertionSort,
      TimeAttestation.serialize, attMagic, writeVarbytes, writeVaruint]

theorem sortAtts_eq_of_setEq {a1 a2 : List TimeAttestation}
    (h1 : a1.Nodup) (h2 : a2.Nodup) (hext : ∀ x, x ∈ a1 ↔ x ∈ a2) :
    sortAtts a1 = sortAtts a2 := by
  have hperm : a1.Perm a2 := (List.perm_ext_iff_of_nodup h1 h2).mpr hext
  have hp : (sortAtts a1).Perm (sortAtts a2) :=
    ((List.perm_insertionSort _ a1).trans hperm).trans
      (List.perm_insertionSort _ a2).symm
  exact List.eq_of_perm_of_sorted hp
    (List.sorted_insertionSort _ _) (List.sorted_insertionSort _ _)

theorem keys_sortOps_eq {o1 o2 : List (Op × Timestamp)}
    (h1 : (o1.map Prod.fst).Nodup) (h2 : (o2.map Prod.fst).Nodup)
    (hext : ∀ k, k ∈ o1.map Prod.fst ↔ k ∈ o2.map Prod.fst) :
    (sortOps o1).map Prod.fst = (sortOps o2).map Prod.fst := by
  have hperm : (o1.map Prod.fst).Perm (o2.map Prod.fst) :=
    (List.perm_ext_iff_of_nodup h1 h2).mpr hext
  have hp : ((sortOps o1).map Prod.fst).Perm
      ((sortOps o2).map Prod.fst) :=
    (((List.perm_insertionSort opPairLe o1).map Prod.fst).trans
      hperm).trans
      ((List.perm_insertionSort opPairLe o2).map Prod.fst).symm
  exact List.eq_of_perm_of_sorted hp
    (List.Pairwise.map _ (fun a b hab => hab)
      (List.sorted_insertionSort opPairLe o1))
    (List.Pairwise.map _ (fun a b hab => hab)
      (List.sorted_insertionSort opPairLe o2))

/-- Two entry lists with pairwise-equal keys and pairwise-equal child
serializations serialize identically through the sorted-op loop. -/
theorem serializeOpsSorted_congr :
    ∀ {l1 l2 : List (Op × Timestamp)},
      List.Forall₂ (fun p q : Op × Timestamp =>
        p.1 = q.1 ∧ p.2.serialize = q.2.serialize) l1 l2 →
      serializeOpsSorted l1 = serializeOpsSorted l2 := by
  intro l1 l2 h
  induction h with
  | nil => rfl
  | @cons p q t1 t2 hpq htail ih =>
    cases htail with
    | nil =>
      rw [serializeOpsSorted, serializeOpsSorted]
      obtain ⟨op1, c1⟩ := p
      obtain ⟨op2, c2⟩ := q
      obtain ⟨he1, he2⟩ := hpq
      simp only at he1 he2
      rw [he1, he2]
    | @cons q1 q2 t1b t2b hq ht =>
      have hunf1 : serializeOpsSorted (p :: q1 :: t1b)
          = (match p.2.serialize, serializeOpsSorted (q1 :: t1b) with
             | some sb, some rb =>
               some (0xff :: (p.1.serialize ++ sb) ++ rb)
             | _, _ => none) := by
        obtain ⟨op1, c1⟩ := p
        rw [serializeOpsSorted]
        all_goals simp
      have hunf2 : serializeOpsSorted (q :: q2 :: t2b)
          = (match q.2.serialize, serializeOpsSorted (q2 :: t2b) with
             | some sb, some rb =>
               some (0xff :: (q.1.serialize ++ sb) ++ rb)
             | _, _ => none) := by
        obtain ⟨op2, c2⟩ := q
        rw [serializeOpsSorted]
        all_goals simp
      rw [hunf1, hunf2, hpq.1, hpq.2, ih]

/-- Size-bounded form of the amended C4, for the strong induction. -/
theorem serialize_congr_aux :
    ∀ (n : Nat) (t1 t2 : Timestamp), sizeOf t1 ≤ n →
      wf t1 = true → wf t2 = true → eqFull t1 t2 = true →
      t1.serialize = t2.serialize := by
  intro n
  induction n using Nat.strong_induction_on with
  | _ n ih =>
    intro t1 t2 hsz hwf1 hwf2 heq
    obtain ⟨m1, a1, o1⟩ := t1
    obtain ⟨m2, a2, o2⟩ := t2
    rw [wf_iff] at hwf1 hwf2
    obtain ⟨hnda1, hndk1, hkids1⟩ := hwf1
    obtain ⟨hnda2, hndk2, hkids2⟩ := hwf2
    rw [eqFull] at heq
    simp only [Bool.and_eq_true, beq_iff_eq, attSetEq_iff, keysSub_iff,
      eqFullOps_iff] at heq
    obtain ⟨⟨⟨hm, hatt⟩, hks⟩, heops⟩ := heq
    have hkeysext : ∀ k, k ∈ o1.map Prod.fst ↔ k ∈ o2.map Prod.fst := by
      intro k
      constructor
      · intro hk
        obtain ⟨p, hp, rfl⟩ := List.mem_map.mp hk
        obtain ⟨c2, hl, _⟩ := heops p hp
        rw [← lookupOp_isSome_iff]
        rw [hl]
        rfl
      · intro hk
        obtain ⟨q, hq, rfl⟩ := List.mem_map.mp hk
        rw [← lookupOp_isSome_iff]
        exact hks q hq
    have hsa : sortAtts a1 = sortAtts a2 :=
      sortAtts_eq_of_setEq hnda1 hnda2 hatt
    have hkeys : (sortOps o1).map Prod.fst = (sortOps o2).map Prod.fst :=
      keys_sortOps_eq hndk1 hndk2 hkeysext
    have hf2 : List.Forall₂ (fun p q : Op × Timestamp =>
        p.1 = q.1 ∧ p.2.serialize = q.2.serialize)
        (sortOps o1) (sortOps o2) := by
      have hpoint : ∀ p ∈ sortOps o1, ∀ q ∈ sortOps o2, p.1 = q.1 →
          p.2.serialize = q.2.serialize := by
        intro p hp q hq hpq
        have hp2 : p ∈ o1 := (mem_sortOps _ _).mp hp
        have hq2 : q ∈ o2 := (mem_sortOps _ _).mp hq
        obtain ⟨c2, hl, hef⟩ := heops p hp2
        have hql : lookupOp q.1 o2 = some q.2 := mem_lookupOp hndk2 (by
          obtain ⟨qa, qb⟩ := q
          exact hq2)
        rw [hpq] at hl
        rw [hql] at hl
        injection hl with hl
        subst hl
        have h1 : sizeOf p < sizeOf o1 := List.sizeOf_lt_of_mem hp2
        have h2 : sizeOf p.2 < sizeOf p := by
          obtain ⟨x, y⟩ := p
          first | (simp; omega) | simp
        have h3 : sizeOf o1 < sizeOf (Timestamp.mk m1 a1 o1) := by
          first | (simp; omega) | simp
        exact ih (sizeOf p.2) (by omega) p.2 q.2 le_rfl
          (hkids1 p hp2).2 (hkids2 q hq2).2 hef
      clear hsz ih
      revert hkeys hpoint
      generalize sortOps o1 = s1
      generalize sortOps o2 = s2
      intro hkeys
      induction s1 generalizing s2 with
      | nil =>
        cases s2 with
        | nil => intro _; exact List.Forall₂.nil
        | cons q t2 => simp at hkeys
      | cons p t1 ihl =>
        cases s2 with
        | nil => simp at hkeys
        | cons q t2 =>
          intro hpoint
          simp only [List.map_cons, List.cons.injEq] at hkeys
          exact List.Forall₂.cons
            ⟨hkeys.1, hpoint p (List.mem_cons_self _ _) q
              (List.mem_cons_self _ _) hkeys.1⟩
            (ihl t2 hkeys.2 (fun p2 hp2 q2 hq2 he =>
              hpoint p2 (List.mem_cons_of_mem _ hp2) q2
                (List.mem_cons_of_mem _ hq2) he))
    have hso : serializeOpsSorted (sortOps o1)
        = serializeOpsSorted (sortOps o2) := serializeOpsSorted_congr hf2
    have hae : a1.isEmpty = a2.isEmpty := by
      cases h1 : a1 with
      | nil =>
        cases h2 : a2 with
        | nil => rfl
        | cons x t =>
          have := (hatt x).mpr (h2 ▸ List.mem_cons_self x t)
          rw [h1] at this
          simp at this
      | cons x t =>
        cases h2 : a2 with
        | nil =>
          have := (hatt x).mp (h1 ▸ List.mem_cons_self x t)
          rw [h2] at this
          simp at this
        | cons y t2 => rfl
    have hoe : o1 = [] ↔ o2 = [] := by
      constructor
      · intro h
        subst h
        cases h2 : o2 with
        | nil => rfl
        | cons q t =>
          have := (hkeysext q.1).mpr (by
            rw [h2]
            exact List.mem_map.mpr ⟨q, List.mem_cons_self _ _, rfl⟩)
          simp at this
      · intro h
        subst h
        cases h1 : o1 with
        | nil => rfl
        | cons p t =>
          have := (hkeysext p.1).mp (by
            rw [h1]
            exact List.mem_map.mpr ⟨p, List.mem_cons_self _ _, rfl⟩)
          simp at this
    cases ho1 : o1 with
    | nil =>
      have ho2 : o2 = [] := hoe.mp ho1
      subst ho1
      subst ho2
      rw [Timestamp.serialize, Timestamp.serialize]
      simp only [hsa, hae]
    | cons p t1 =>
      have ho2ne : o2 ≠ [] := by
        intro h
        have hx := hoe.mpr h
        rw [ho1] at hx
        simp at hx
      obtain ⟨q, t2, rfl⟩ : ∃ q t2, o2 = q :: t2 := by
        cases o2 with
        | nil => exact absurd rfl ho2ne
        | cons q t2 => exact ⟨q, t2, rfl⟩
      subst ho1
      rw [Timestamp.serialize, Timestamp.serialize]
      simp only [hsa, hae, hso]
      simp

/-- C4 (amended): serialization is canonical over *full* equality —
for all well-formed timestamps, if the messages, attestation sets and
op maps (recursively, including attestation sets at every level) of
`T1` and `T2` agree, then `serialize(T1)` and `serialize(T2)` are
byte-identical.  Over the code's laxer `__eq__`, which ignores
attestations, the claim fails (see the counterexample). -/
theorem C4_serialize_congr (t1 t2 : Timestamp) (hwf1 : wf t1 = true)
    (hwf2 : wf t2 = true) (heq : eqFull t1 t2 = true) :
    t1.serialize = t2.serialize :=
  serialize_congr_aux (sizeOf t1) t1 t2 le_rfl hwf1 hwf2 heq

/-- C4, witness: two set-equal one-attestation trees with differently
ordered attestation lists serialize identically. -/
theorem C4_witness :
    wf (Timestamp.mk [2] [⟨[5]⟩, ⟨[4]⟩] []) = true ∧
      wf (Timestamp.mk [2] [⟨[4]⟩, ⟨[5]⟩] []) = true ∧
      eqFull (Timestamp.mk [2] [⟨[5]⟩, ⟨[4]⟩] [])
        (Timestamp.mk [2] [⟨[4]⟩, ⟨[5]⟩] []) = true ∧
      Timestamp.serialize (Timestamp.mk [2] [⟨[5]⟩, ⟨[4]⟩] [])
        = Timestamp.serialize (Timestamp.mk [2] [⟨[4]⟩, ⟨[5]⟩] []) := by
  have h1 : wf (Timestamp.mk [2] [⟨[5]⟩, ⟨[4]⟩] []) = true := by
    simp [wf, wfOps, nodupAtts, nodupKeys]
  have h2 : wf (Timestamp.mk [2] [⟨[4]⟩, ⟨[5]⟩] []) = true := by
    simp [wf, wfOps, nodupAtts, nodupKeys]
  have h3 : eqFull (Timestamp.mk [2] [⟨[5]⟩, ⟨[4]⟩] [])
      (Timestamp.mk [2] [⟨[4]⟩, ⟨[5]⟩] []) = true := by
    simp [eqFull, attSetEq, keysSub, eqFullOps]
  exact ⟨h1, h2, h3, C4_serialize_congr _ _ h1 h2 h3⟩

/-! ### Merge infrastructure (claims C5, C7, C10) -/

theorem wf_new (msg : Bytes) : wf (Timestamp.new msg) = true := by
  simp [Timestamp.new, wf, wfOps, nodupAtts, nodupKeys]

theorem mem_replaceOp {q : Op × Timestamp} {l : List (Op × Timestamp)}
    {op : Op} {v : Timestamp} (h : q ∈ replaceOp l op v) :
    q ∈ l ∨ q = (op, v) := by
  induction l with
  | nil => simp [replaceOp] at h
  | cons p rest ih =>
    obtain ⟨o, c⟩ := p
    by_cases he : o = op
    · subst he
      simp only [replaceOp, if_pos rfl] at h
      rcases List.mem_cons.mp h with rfl | htl
      · exact Or.inr rfl
      · exact Or.inl (List.mem_cons_of_mem _ htl)
    · simp only [replaceOp, if_neg he] at h
      rcases List.mem_cons.mp h with rfl | htl
      · exact Or.inl (List.mem_cons_self _ _)
      · rcases ih htl with h1 | h1
        · exact Or.inl (List.mem_cons_of_mem _ h1)
        · exact Or.inr h1

theorem replaceOp_append_fresh {l : List (Op × Timestamp)} {op : Op}
    (x y : Timestamp) (h : lookupOp op l = none) :
    replaceOp (l ++ [(op, x)]) op y = l ++ [(op, y)] := by
  induction l with
  | nil => simp [replaceOp]
  | cons p rest ih =>
    obtain ⟨o, c⟩ := p
    have hne : o ≠ op := by
      intro he
      subst he
      simp [lookupOp] at h
    simp only [lookupOp, if_neg hne] at h
    simp [replaceOp, hne, ih h]

/-- Introduction form of `eqFull` over accessors. -/
theorem eqFull_intro (t1 t2 : Timestamp) (hm : t1.msg = t2.msg)
    (hatt : ∀ x, x ∈ t1.attestations ↔ x ∈ t2.attestations)
    (hks : ∀ p ∈ t2.ops, (lookupOp p.1 t1.ops).isSome = true)
    (hent : ∀ p ∈ t1.ops, ∃ c2, lookupOp p.1 t2.ops = some c2 ∧
      eqFull p.2 c2 = true) :
    eqFull t1 t2 = true := by
  obtain ⟨m1, a1, o1⟩ := t1
  obtain ⟨m2, a2, o2⟩ := t2
  rw [eqFull]
  simp only [Bool.and_eq_true, beq_iff_eq, attSetEq_iff, keysSub_iff,
    eqFullOps_iff]
  exact ⟨⟨⟨hm, hatt⟩, hks⟩, hent⟩

/-- Elimination form of `eqFull` over accessors. -/
theorem eqFull_elim {t1 t2 : Timestamp} (h : eqFull t1 t2 = true) :
    t1.msg = t2.msg ∧
      (∀ x, x ∈ t1.attestations ↔ x ∈ t2.attestations) ∧
      (∀ p ∈ t2.ops, (lookupOp p.1 t1.ops).isSome = true) ∧
      ∀ p ∈ t1.ops, ∃ c2, lookupOp p.1 t2.ops = some c2 ∧
        eqFull p.2 c2 = true := by
  obtain ⟨m1, a1, o1⟩ := t1
  obtain ⟨m2, a2, o2⟩ := t2
  rw [eqFull] at h
  simp only [Bool.and_eq_true, beq_iff_eq, attSetEq_iff, keysSub_iff,
    eqFullOps_iff] at h
  exact ⟨h.1.1.1, h.1.1.2, h.1.2, h.2⟩

/-- `wf` over accessors. -/
theorem wf_elim {t : Timestamp} (h : wf t = true) :
    t.attestations.Nodup ∧ (t.ops.map Prod.fst).Nodup ∧
      ∀ p ∈ t.ops, p.2.msg = p.1.apply t.msg ∧ wf p.2 = true := by
  obtain ⟨m, a, o⟩ := t
  rw [wf_iff] at h
  exact h

/-- Characterization of the `mergeOps` loop: given that every child
merge succeeds (supplied as a hypothesis, discharged by the main merge
induction), the loop succeeds, preserves the per-entry invariants, and
its result's lookups are: unchanged for keys absent from `other`;
the child-merge result for shared keys; and a merge into a fresh node
for keys only in `other`. -/
theorem mergeOpsSpec :
    ∀ (other : List (Op × Timestamp)) (m : Bytes),
      (∀ q ∈ other, ∀ c : Timestamp, c.msg = q.1.apply m → wf c = true →
        ∃ rc, c.merge q.2 = .ok rc ∧ rc.msg = c.msg ∧ wf rc = true) →
      (∀ q ∈ other, q.2.msg = q.1.apply m ∧ wf q.2 = true) →
      (other.map Prod.fst).Nodup →
      ∀ ours, (∀ q ∈ ours, q.2.msg = q.1.apply m ∧ wf q.2 = true) →
        (ours.map Prod.fst).Nodup →
        ∃ res, mergeOps m ours other = .ok res ∧
          (∀ q ∈ res, q.2.msg = q.1.apply m ∧ wf q.2 = true) ∧
          (res.map Prod.fst).Nodup ∧
          (∀ op, lookupOp op other = none →
            lookupOp op res = lookupOp op ours) ∧
          (∀ op oc, lookupOp op other = some oc →
            (∀ c, lookupOp op ours = some c →
              ∃ rc, c.merge oc = .ok rc ∧ lookupOp op res = some rc) ∧
            (lookupOp op ours = none →
              ∃ rc, (Timestamp.new (op.apply m)).merge oc = .ok rc ∧
                lookupOp op res = some rc)) := by
  intro other
  induction other with
  | nil =>
    intro m _ _ _ ours hours hnours
    refine ⟨ours, by rw [mergeOps], hours, hnours, fun op _ => rfl,
      fun op oc hoc => ?_⟩
    simp [lookupOp] at hoc
  | cons p rest ih =>
    intro m hmerge hother hnother ours hours hnours
    obtain ⟨op, oc⟩ := p
    have hocp := hother (op, oc) (List.mem_cons_self _ _)
    simp only at hocp
    rw [List.map_cons, List.nodup_cons] at hnother
    obtain ⟨hopfresh, hnrest⟩ := hnother
    have hrestmerge : ∀ q ∈ rest, ∀ c : Timestamp,
        c.msg = q.1.apply m → wf c = true →
        ∃ rc, c.merge q.2 = .ok rc ∧ rc.msg = c.msg ∧ wf rc = true :=
      fun q hq => hmerge q (List.mem_cons_of_mem _ hq)
    have hrestother : ∀ q ∈ rest, q.2.msg = q.1.apply m ∧ wf q.2 = true :=
      fun q hq => hother q (List.mem_cons_of_mem _ hq)
    match hl : lookupOp op ours with
    | some c =>
      have hcprop := hours (op, c) (lookupOp_mem hl)
      simp only at hcprop
      obtain ⟨merged, hmok, hmmsg, hmwf⟩ :=
        hmerge (op, oc) (List.mem_cons_self _ _) c hcprop.1 hcprop.2
      have hours2 : ∀ q ∈ replaceOp ours op merged,
          q.2.msg = q.1.apply m ∧ wf q.2 = true := by
        intro q hq
        rcases mem_replaceOp hq with h1 | rfl
        · exact hours q h1
        · exact ⟨by rw [hmmsg]; exact hcprop.1, hmwf⟩
      have hnours2 : ((replaceOp ours op merged).map Prod.fst).Nodup := by
        rw [keys_replaceOp]
        exact hnours
      obtain ⟨res, hres, hresprop, hresnd, hresA, hresB⟩ :=
        ih m hrestmerge hrestother hnrest
          (replaceOp ours op merged) hours2 hnours2
      refine ⟨res, ?_, hresprop, hresnd, ?_, ?_⟩
      · rw [mergeOps]
        unfold OpSet.add
        rw [hl]
        simp only [hmok]
        exact hres
      · intro op2 hnone
        have hne : op ≠ op2 := by
          intro he
          subst he
          simp [lookupOp] at hnone
        simp only [lookupOp, if_neg hne] at hnone
        rw [hresA op2 hnone, lookupOp_replaceOp_other _ _ (Ne.symm hne)]
      · intro op2 oc2 hoc2
        by_cases he : op = op2
        · subst he
          simp [lookupOp] at hoc2
          subst hoc2
          have hrestnone : lookupOp op rest = none := by
            rw [lookupOp_eq_none_iff]
            exact hopfresh
          constructor
          · intro c2 hc2
            rw [hl] at hc2
            injection hc2 with hc2
            subst hc2
            refine ⟨merged, hmok, ?_⟩
            rw [hresA op hrestnone]
            exact lookupOp_replaceOp_self merged hl
          · intro hc2
            rw [hl] at hc2
            exact absurd hc2 (by simp)
        · simp only [lookupOp, if_neg he] at hoc2
          have hB := hresB op2 oc2 hoc2
          constructor
          · intro c2 hc2
            refine hB.1 c2 ?_
            rw [lookupOp_replaceOp_other _ _ (Ne.symm he)]
            exact hc2
          · intro hc2
            refine hB.2 ?_
            rw [lookupOp_replaceOp_other _ _ (Ne.symm he)]
            exact hc2
    | none =>
      obtain ⟨merged, hmok, hmmsg, hmwf⟩ :=
        hmerge (op, oc) (List.mem_cons_self _ _)
          (Timestamp.new (op.apply m)) rfl (wf_new _)
      have hsimpl : replaceOp (ours ++ [(op, Timestamp.new (op.apply m))])
          op merged = ours ++ [(op, merged)] :=
        replaceOp_append_fresh _ _ hl
      have hours2 : ∀ q ∈ ours ++ [(op, merged)],
          q.2.msg = q.1.apply m ∧ wf q.2 = true := by
        intro q hq
        rcases List.mem_append.mp hq with h1 | h1
        · exact hours q h1
        · rw [List.mem_singleton] at h1
          subst h1
          exact ⟨by rw [hmmsg]; rfl, hmwf⟩
      have hnours2 : ((ours ++ [(op, merged)]).map Prod.fst).Nodup := by
        rw [List.map_append]
        refine List.Nodup.append hnours (by simp) ?_
        intro k hk hk2
        simp only [List.map_cons, List.map_nil, List.mem_singleton] at hk2
        subst hk2
        rw [lookupOp_eq_none_iff] at hl
        exact hl hk
      obtain ⟨res, hres, hresprop, hresnd, hresA, hresB⟩ :=
        ih m hrestmerge hrestother hnrest
          (ours ++ [(op, merged)]) hours2 hnours2
      have hlookap : ∀ op2, op2 ≠ op →
          lookupOp op2 (ours ++ [(op, merged)]) = lookupOp op2 ours := by
        intro op2 hne
        rw [lookupOp_append]
        match hx : lookupOp op2 ours with
        | some c => rfl
        | none => simp [lookupOp, hne, Ne.symm hne]
      refine ⟨res, ?_, hresprop, hresnd, ?_, ?_⟩
      · rw [mergeOps]
        unfold OpSet.add
        rw [hl]
        simp only [hmok, hsimpl]
        exact hres
      · intro op2 hnone
        have hne : op ≠ op2 := by
          intro he
          subst he
          simp [lookupOp] at hnone
        simp only [lookupOp, if_neg hne] at hnone
        rw [hresA op2 hnone, hlookap op2 (Ne.symm hne)]
      · intro op2 oc2 hoc2
        by_cases he : op = op2
        · subst he
          simp [lookupOp] at hoc2
          subst hoc2
          have hrestnone : lookupOp op rest = none := by
            rw [lookupOp_eq_none_iff]
            exact hopfresh
          constructor
          · intro c2 hc2
            rw [hl] at hc2
            exact absurd hc2 (by simp)
          · intro _
            refine ⟨merged, hmok, ?_⟩
            rw [hresA op hrestnone, lookupOp_append, hl]
            simp [lookupOp]
        · simp only [lookupOp, if_neg he] at hoc2
          have hB := hresB op2 oc2 hoc2
          constructor
          · intro c2 hc2
            refine hB.1 c2 ?_
            rw [hlookap op2 (Ne.symm he)]
            exact hc2
          · intro hc2
            refine hB.2 ?_
            rw [hlookap op2 (Ne.symm he)]
            exact hc2

/-- Characterization of `Timestamp.merge` on well-formed inputs with
matching messages: it succeeds, preserves well-formedness, unions the
attestation sets, and its op map holds the original children for keys
absent from `other`, recursively merged children for shared keys, and
merges into fresh nodes for keys only in `other`. -/
theorem mergeSpec :
    ∀ (n : Nat) (o : Timestamp), sizeOf o ≤ n →
      ∀ t : Timestamp, wf t = true → wf o = true → t.msg = o.msg →
      ∃ r, t.merge o = .ok r ∧ r.msg = t.msg ∧ wf r = true ∧
        (∀ x, x ∈ r.attestations ↔
          x ∈ t.attestations ∨ x ∈ o.attestations) ∧
        (∀ op, lookupOp op o.ops = none →
          lookupOp op r.ops = lookupOp op t.ops) ∧
        (∀ op oc, lookupOp op o.ops = some oc →
          (∀ c, lookupOp op t.ops = some c →
            ∃ rc, c.merge oc = .ok rc ∧ lookupOp op r.ops = some rc) ∧
          (lookupOp op t.ops = none →
            ∃ rc, (Timestamp.new (op.apply t.msg)).merge oc = .ok rc ∧
              lookupOp op r.ops = some rc)) := by
  intro n
  induction n using Nat.strong_induction_on with
  | _ n ih =>
    intro o hsz t hwft hwfo hmsg
    obtain ⟨m, a, os⟩ := t
    obtain ⟨m2, a2, os2⟩ := o
    rw [wf_iff] at hwft hwfo
    obtain ⟨hnda, hndk, hkids⟩ := hwft
    obtain ⟨hnda2, hndk2, hkids2⟩ := hwfo
    simp only [Timestamp.msg] at hmsg
    subst hmsg
    have hchildmerge : ∀ q ∈ os2, ∀ c : Timestamp,
        c.msg = q.1.apply m → wf c = true →
        ∃ rc, c.merge q.2 = .ok rc ∧ rc.msg = c.msg ∧ wf rc = true := by
      intro q hq c hcmsg hcwf
      have h1 : sizeOf q < sizeOf os2 := List.sizeOf_lt_of_mem hq
      have h2 : sizeOf q.2 < sizeOf q := by
        obtain ⟨x, y⟩ := q
        first | (simp; omega) | simp
      have h3 : sizeOf os2 < sizeOf (Timestamp.mk m a2 os2) := by
        first | (simp; omega) | simp
      obtain ⟨rc, hok, hrm, hrwf, _⟩ :=
        ih (sizeOf q.2) (by omega) q.2 le_rfl c hcwf
          (hkids2 q hq).2 (by rw [hcmsg, (hkids2 q hq).1])
      exact ⟨rc, hok, hrm, hrwf⟩
    obtain ⟨res, hres, hresprop, hresnd, hresA, hresB⟩ :=
      mergeOpsSpec os2 m hchildmerge hkids2 hndk2 os hkids hndk
    refine ⟨.mk m (setUnion a a2) res, ?_, rfl, ?_, ?_, ?_, ?_⟩
    · rw [Timestamp.merge]
      simp only [if_neg (by simp : ¬ m ≠ m), hres]
    · rw [wf_iff]
      exact ⟨nodup_setUnion a a2 hnda, hresnd, hresprop⟩
    · intro x
      exact mem_setUnion a a2 x
    · exact hresA
    · exact hresB

/-- Merging a timestamp into a fresh node with the same message
produces an `eqFull`-equal copy. -/
theorem merge_new_eqFull :
    ∀ (n : Nat) (c : Timestamp), sizeOf c ≤ n → wf c = true →
      ∀ r, (Timestamp.new c.msg).merge c = .ok r → eqFull r c = true := by
  intro n
  induction n using Nat.strong_induction_on with
  | _ n ih =>
    intro c hsz hwf r hok
    obtain ⟨r2, hok2, hrm, hrwf, hatt, hA, hB⟩ :=
      mergeSpec (sizeOf c) c le_rfl (Timestamp.new c.msg) (wf_new _)
        hwf rfl
    rw [hok] at hok2
    injection hok2 with hok2
    subst hok2
    obtain ⟨_, hndkc, hkidsc⟩ := wf_elim hwf
    obtain ⟨_, hndkr, hkidsr⟩ := wf_elim hrwf
    refine eqFull_intro r c hrm (fun x => ?_) (fun p hp => ?_)
      (fun p hp => ?_)
    · rw [hatt x]
      simp [Timestamp.new, Timestamp.attestations]
    · -- every key of c is present in r
      have hlc : lookupOp p.1 c.ops = some p.2 := mem_lookupOp hndkc hp
      have := (hB p.1 p.2 hlc).2 (by
        simp [Timestamp.new, Timestamp.ops, lookupOp])
      obtain ⟨rc, _, hlr⟩ := this
      rw [hlr]
      rfl
    · -- every entry of r is a recursive copy of c's entry
      have hlr : lookupOp p.1 r.ops = some p.2 := mem_lookupOp hndkr hp
      match hlc : lookupOp p.1 c.ops with
      | none =>
        have := hA p.1 hlc
        rw [hlr] at this
        simp only [Timestamp.new, Timestamp.ops, lookupOp] at this
        exact absurd this (by simp)
      | some oc =>
        obtain ⟨rc, hrcok, hlr2⟩ := (hB p.1 oc hlc).2 (by
          simp [Timestamp.new, Timestamp.ops, lookupOp])
        rw [hlr] at hlr2
        injection hlr2 with hlr2
        subst hlr2
        refine ⟨oc, rfl, ?_⟩
        have hq : (p.1, oc) ∈ c.ops := lookupOp_mem hlc
        have h1 : sizeOf (p.1, oc) < sizeOf c.ops :=
          List.sizeOf_lt_of_mem hq
        have h2 : sizeOf oc < sizeOf (p.1, oc) := by
          first | (simp; omega) | simp
        have h3 : sizeOf c.ops < sizeOf c := by
          obtain ⟨mm, aa, oo⟩ := c
          simp only [Timestamp.ops]
          first | (simp; omega) | simp
        have hocmsg : (Timestamp.new (p.1.apply c.msg)).msg = oc.msg := by
          rw [(hkidsc (p.1, oc) hq).1]
          rfl
        refine ih (sizeOf oc) (by omega) oc le_rfl
          (hkidsc (p.1, oc) hq).2 p.2 ?_
        rw [show Timestamp.new oc.msg
            = Timestamp.new (p.1.apply c.msg) from by
          rw [(hkidsc (p.1, oc) hq).1]]
        exact hrcok

/-- `eqFull` is symmetric on well-formed trees. -/
theorem eqFull_symm :
    ∀ (n : Nat) (t1 : Timestamp), sizeOf t1 ≤ n →
      ∀ t2, wf t1 = true → wf t2 = true → eqFull t1 t2 = true →
      eqFull t2 t1 = true := by
  intro n
  induction n using Nat.strong_induction_on with
  | _ n ih =>
    intro t1 hsz t2 hwf1 hwf2 heq
    obtain ⟨hm, hatt, hks, hent⟩ := eqFull_elim heq
    obtain ⟨_, hndk1, hkids1⟩ := wf_elim hwf1
    obtain ⟨_, hndk2, hkids2⟩ := wf_elim hwf2
    refine eqFull_intro t2 t1 hm.symm (fun x => (hatt x).symm)
      (fun p hp => ?_) (fun q hq => ?_)
    · obtain ⟨c2, hl, _⟩ := hent p hp
      rw [hl]
      rfl
    · have hksq := hks q hq
      match hl1 : lookupOp q.1 t1.ops with
      | none => rw [hl1] at hksq; simp at hksq
      | some c1 =>
        refine ⟨c1, rfl, ?_⟩
        have hmem1 : (q.1, c1) ∈ t1.ops := lookupOp_mem hl1
        obtain ⟨c2, hl2, hef⟩ := hent (q.1, c1) hmem1
        have hlq : lookupOp q.1 t2.ops = some q.2 := mem_lookupOp hndk2 hq
        simp only at hl2
        rw [hlq] at hl2
        injection hl2 with hl2
        subst hl2
        have h1 : sizeOf (q.1, c1) < sizeOf t1.ops :=
          List.sizeOf_lt_of_mem hmem1
        have h2 : sizeOf c1 < sizeOf (q.1, c1) := by
          first | (simp; omega) | simp
        have h3 : sizeOf t1.ops < sizeOf t1 := by
          obtain ⟨mm, aa, oo⟩ := t1
          simp only [Timestamp.ops]
          first | (simp; omega) | simp
        exact ih (sizeOf c1) (by omega) c1 le_rfl q.2
          (hkids1 (q.1, c1) hmem1).2 (hkids2 q hq).2 hef

/-- Size-bounded merge commutativity, for the strong induction. -/
theorem merge_comm_aux :
    ∀ (n : Nat) (A B : Timestamp), sizeOf A + sizeOf B ≤ n →
      wf A = true → wf B = true → A.msg = B.msg →
      ∀ r1 r2, A.merge B = .ok r1 → B.merge A = .ok r2 →
      eqFull r1 r2 = true := by
  intro n
  induction n using Nat.strong_induction_on with
  | _ n ih =>
    intro A B hsz hwfA hwfB hmsg r1 r2 hok1 hok2
    obtain ⟨rA, hokA, hmA, hwfA2, hattA, hA1, hB1⟩ :=
      mergeSpec (sizeOf B) B le_rfl A hwfA hwfB hmsg
    obtain ⟨rB, hokB, hmB, hwfB2, hattB, hA2, hB2⟩ :=
      mergeSpec (sizeOf A) A le_rfl B hwfB hwfA hmsg.symm
    rw [hok1] at hokA
    injection hokA with hokA
    subst hokA
    rw [hok2] at hokB
    injection hokB with hokB
    subst hokB
    obtain ⟨_, hndkA, hkidsA⟩ := wf_elim hwfA
    obtain ⟨_, hndkB, hkidsB⟩ := wf_elim hwfB
    obtain ⟨_, hndk1, hkids1⟩ := wf_elim hwfA2
    obtain ⟨_, hndk2, hkids2⟩ := wf_elim hwfB2
    refine eqFull_intro r1 r2 (by rw [hmA, hmB, hmsg])
      (fun x => by rw [hattA x, hattB x]; tauto)
      (fun p hp => ?_) (fun p hp => ?_)
    · -- keys of r2 are keys of r1
      match hlA : lookupOp p.1 A.ops, hlB : lookupOp p.1 B.ops with
      | none, none =>
        have := hA2 p.1 hlA
        rw [mem_lookupOp hndk2 hp, hlB] at this
        exact absurd this (by simp)
      | some c1, _ =>
        match hlB2 : lookupOp p.1 B.ops with
        | some c2 =>
          obtain ⟨rc, _, hlr⟩ := (hB1 p.1 c2 hlB2).1 c1 hlA
          rw [hlr]
          rfl
        | none =>
          rw [hA1 p.1 hlB2, hlA]
          rfl
      | none, some c2 =>
        obtain ⟨rc, _, hlr⟩ := (hB1 p.1 c2 hlB).2 hlA
        rw [hlr]
        rfl
    · -- entries of r1 are eqFull to entries of r2
      have hlr1 : lookupOp p.1 r1.ops = some p.2 := mem_lookupOp hndk1 hp
      match hlA : lookupOp p.1 A.ops, hlB : lookupOp p.1 B.ops with
      | none, none =>
        have := hA1 p.1 hlB
        rw [hlr1, hlA] at this
        exact absurd this (by simp)
      | some c1, some c2 =>
        obtain ⟨rc1, hmerge1, hlrc1⟩ := (hB1 p.1 c2 hlB).1 c1 hlA
        rw [hlr1] at hlrc1
        injection hlrc1 with hlrc1
        subst hlrc1
        obtain ⟨rc2, hmerge2, hlrc2⟩ := (hB2 p.1 c1 hlA).1 c2 hlB
        refine ⟨rc2, hlrc2, ?_⟩
        have hmemA : (p.1, c1) ∈ A.ops := lookupOp_mem hlA
        have hmemB : (p.1, c2) ∈ B.ops := lookupOp_mem hlB
        have hs1 : sizeOf (p.1, c1) < sizeOf A.ops :=
          List.sizeOf_lt_of_mem hmemA
        have hs2 : sizeOf c1 < sizeOf (p.1, c1) := by
          first | (simp; omega) | simp
        have hs3 : sizeOf A.ops < sizeOf A := by
          obtain ⟨mm, aa, oo⟩ := A
          simp only [Timestamp.ops]
          first | (simp; omega) | simp
        have hs4 : sizeOf (p.1, c2) < sizeOf B.ops :=
          List.sizeOf_lt_of_mem hmemB
        have hs5 : sizeOf c2 < sizeOf (p.1, c2) := by
          first | (simp; omega) | simp
        have hs6 : sizeOf B.ops < sizeOf B := by
          obtain ⟨mm, aa, oo⟩ := B
          simp only [Timestamp.ops]
          first | (simp; omega) | simp
        refine ih (sizeOf c1 + sizeOf c2) (by omega) c1 c2 le_rfl
          (hkidsA (p.1, c1) hmemA).2 (hkidsB (p.1, c2) hmemB).2 ?_
          p.2 rc2 hmerge1 hmerge2
        rw [(hkidsA (p.1, c1) hmemA).1, (hkidsB (p.1, c2) hmemB).1, hmsg]
      | some c1, none =>
        have hl1 := hA1 p.1 hlB
        rw [hlr1, hlA] at hl1
        injection hl1 with hl1
        obtain ⟨rc2, hmerge2, hlrc2⟩ := (hB2 p.1 c1 hlA).2 hlB
        refine ⟨rc2, hlrc2, ?_⟩
        have hmemA : (p.1, c1) ∈ A.ops := lookupOp_mem hlA
        have hc1msg : p.1.apply B.msg = c1.msg := by
          rw [(hkidsA (p.1, c1) hmemA).1, hmsg]
        rw [show Timestamp.new (p.1.apply B.msg)
            = Timestamp.new c1.msg from by rw [hc1msg]] at hmerge2
        have hef := merge_new_eqFull (sizeOf c1) c1 le_rfl
          (hkidsA (p.1, c1) hmemA).2 rc2 hmerge2
        have hwfrc2 : wf rc2 = true :=
          (hkids2 (p.1, rc2) (lookupOp_mem hlrc2)).2
        have hsym := eqFull_symm (sizeOf rc2) rc2 le_rfl c1 hwfrc2
          (hkidsA (p.1, c1) hmemA).2 hef
        rw [hl1]
        exact hsym
      | none, some c2 =>
        obtain ⟨rc1, hmerge1, hlrc1⟩ := (hB1 p.1 c2 hlB).2 hlA
        rw [hlr1] at hlrc1
        injection hlrc1 with hlrc1
        subst hlrc1
        have hl2 := hA2 p.1 hlA
        rw [hlB] at hl2
        refine ⟨c2, hl2, ?_⟩
        have hmemB : (p.1, c2) ∈ B.ops := lookupOp_mem hlB
        have hc2msg : p.1.apply A.msg = c2.msg := by
          rw [(hkidsB (p.1, c2) hmemB).1, hmsg]
        rw [show Timestamp.new (p.1.apply A.msg)
            = Timestamp.new c2.msg from by rw [hc2msg]] at hmerge1
        exact merge_new_eqFull (sizeOf c2) c2 le_rfl
          (hkidsB (p.1, c2) hmemB).2 p.2 hmerge1

/-- C7: merge commutativity — for all well-formed timestamps `A`, `B`
with `A.msg = B.msg`, the results of `merge(A, B)` and `merge(B, A)`
are equal: equal messages, equal attestation sets, and equal op maps
recursively. -/
theorem C7_merge_comm (A B : Timestamp) (hwfA : wf A = true)
    (hwfB : wf B = true) (hmsg : A.msg = B.msg) (r1 r2 : Timestamp)
    (h1 : A.merge B = .ok r1) (h2 : B.merge A = .ok r2) :
    eqFull r1 r2 = true :=
  merge_comm_aux (sizeOf A + sizeOf B) A B le_rfl hwfA hwfB hmsg
    r1 r2 h1 h2

/-- C7, witness: merging two one-attestation trees over the same
message in either order gives equal results. -/
theorem C7_witness :
    wf (Timestamp.mk [7] [⟨[1]⟩] []) = true ∧
      wf (Timestamp.mk [7] [⟨[2]⟩] []) = true ∧
      (Timestamp.mk [7] [⟨[1]⟩] []).merge (Timestamp.mk [7] [⟨[2]⟩] [])
        = .ok (Timestamp.mk [7] [⟨[1]⟩, ⟨[2]⟩] []) ∧
      (Timestamp.mk [7] [⟨[2]⟩] []).merge (Timestamp.mk [7] [⟨[1]⟩] [])
        = .ok (Timestamp.mk [7] [⟨[2]⟩, ⟨[1]⟩] []) ∧
      eqFull (Timestamp.mk [7] [⟨[1]⟩, ⟨[2]⟩] [])
        (Timestamp.mk [7] [⟨[2]⟩, ⟨[1]⟩] []) = true := by
  have h1 : wf (Timestamp.mk [7] [⟨[1]⟩] []) = true := by
    simp [wf, wfOps, nodupAtts, nodupKeys]
  have h2 : wf (Timestamp.mk [7] [⟨[2]⟩] []) = true := by
    simp [wf, wfOps, nodupAtts, nodupKeys]
  have hm1 : (Timestamp.mk [7] [⟨[1]⟩] []).merge
      (Timestamp.mk [7] [⟨[2]⟩] [])
      = .ok (Timestamp.mk [7] [⟨[1]⟩, ⟨[2]⟩] []) := by
    rw [Timestamp.merge, mergeOps]
    simp [setUnion, setAdd]
  have hm2 : (Timestamp.mk [7] [⟨[2]⟩] []).merge
      (Timestamp.mk [7] [⟨[1]⟩] [])
      = .ok (Timestamp.mk [7] [⟨[2]⟩, ⟨[1]⟩] []) := by
    rw [Timestamp.merge, mergeOps]
    simp [setUnion, setAdd]
  exact ⟨h1, h2, hm1, hm2,
    C7_merge_comm _ _ h1 h2 rfl _ _ hm1 hm2⟩

/-- C10: merge failure semantics — on well-formed timestamps, `merge`
fails iff the root messages differ (the checks precede all mutation in
the source, and once the roots match no recursive sub-merge can raise
a message mismatch); with matching roots it succeeds outright.  In
this state-passing embedding a failed merge returns no modified state,
mirroring that the source raises before mutating. -/
theorem C10_merge_failure (t o : Timestamp) (hwft : wf t = true)
    (hwfo : wf o = true) :
    ((∃ e, t.merge o = .error e) ↔ t.msg ≠ o.msg) ∧
      (t.msg = o.msg → ∃ r, t.merge o = .ok r) := by
  have hok : t.msg = o.msg → ∃ r, t.merge o = .ok r := by
    intro hmsg
    obtain ⟨r, hr, _⟩ := mergeSpec (sizeOf o) o le_rfl t hwft hwfo hmsg
    exact ⟨r, hr⟩
  refine ⟨⟨?_, ?_⟩, hok⟩
  · rintro ⟨e, he⟩ hmsg
    obtain ⟨r, hr⟩ := hok hmsg
    rw [hr] at he
    exact absurd he (by simp)
  · intro hne
    obtain ⟨m, a, os⟩ := t
    obtain ⟨m2, a2, os2⟩ := o
    simp only [Timestamp.msg] at hne
    refine ⟨"Can't merge timestamps for different messages together", ?_⟩
    rw [Timestamp.merge]
    simp [hne]

/-- C10, witness: merging timestamps over different messages fails;
over the same message it succeeds. -/
theorem C10_witness :
    ((∃ e, (Timestamp.new [1]).merge (Timestamp.new [2]) = .error e)
        ↔ (Timestamp.new [1]).msg ≠ (Timestamp.new [2]).msg) ∧
      ((Timestamp.new [1]).msg = (Timestamp.new [2]).msg →
        ∃ r, (Timestamp.new [1]).merge (Timestamp.new [2]) = .ok r) :=
  C10_merge_failure (Timestamp.new [1]) (Timestamp.new [2])
    (wf_new [1]) (wf_new [2])

/-! ### `ops.add` and `cat_then_unary_op` (claims C5, C8, C9) -/

theorem addOp_msg (t : Timestamp) (op : Op) :
    (t.addOp op).1.msg = t.msg := by
  obtain ⟨m, a, o⟩ := t
  rw [Timestamp.addOp]
  match h : lookupOp op o with
  | some c => simp [OpSet.add, h, Timestamp.msg]
  | none => simp [OpSet.add, h, Timestamp.msg]

theorem addOp_attestations (t : Timestamp) (op : Op) :
    (t.addOp op).1.attestations = t.attestations := by
  obtain ⟨m, a, o⟩ := t
  rw [Timestamp.addOp]
  match h : lookupOp op o with
  | some c => simp [OpSet.add, h, Timestamp.attestations]
  | none => simp [OpSet.add, h, Timestamp.attestations]

theorem addOp_lookup (t : Timestamp) (op : Op) :
    lookupOp op (t.addOp op).1.ops = some (t.addOp op).2 := by
  obtain ⟨m, a, o⟩ := t
  rw [Timestamp.addOp]
  match h : lookupOp op o with
  | some c => simp [OpSet.add, h, Timestamp.ops]
  | none =>
    simp only [OpSet.add, h, Timestamp.ops]
    rw [lookupOp_append, h]
    simp [lookupOp]

theorem addOp_lookup_other (t : Timestamp) (op op2 : Op) (hne : op2 ≠ op) :
    lookupOp op2 (t.addOp op).1.ops = lookupOp op2 t.ops := by
  obtain ⟨m, a, o⟩ := t
  rw [Timestamp.addOp]
  match h : lookupOp op o with
  | some c => simp [OpSet.add, h, Timestamp.ops]
  | none =>
    simp only [OpSet.add, h, Timestamp.ops]
    rw [lookupOp_append]
    match h2 : lookupOp op2 o with
    | some c => rfl
    | none => simp [lookupOp, hne, Ne.symm hne]

/-- `ops.add` preserves well-formedness and returns a well-formed
child whose message is `op(t.msg)`. -/
theorem addOp_wf (t : Timestamp) (op : Op) (hwf : wf t = true) :
    wf (t.addOp op).1 = true ∧ wf (t.addOp op).2 = true ∧
      (t.addOp op).2.msg = op.apply t.msg := by
  obtain ⟨m, a, o⟩ := t
  rw [wf_iff] at hwf
  obtain ⟨hnda, hndk, hkids⟩ := hwf
  rw [Timestamp.addOp]
  match h : lookupOp op o with
  | some c =>
    have hc := hkids (op, c) (lookupOp_mem h)
    simp only at hc
    simp only [OpSet.add, h, Timestamp.msg]
    refine ⟨?_, hc.2, hc.1⟩
    rw [wf_iff]
    exact ⟨hnda, hndk, hkids⟩
  | none =>
    simp only [OpSet.add, h]
    refine ⟨?_, wf_new _, rfl⟩
    rw [wf_iff]
    refine ⟨hnda, ?_, ?_⟩
    · rw [List.map_append]
      refine List.Nodup.append hndk (by simp) ?_
      intro k hk hk2
      simp only [List.map_cons, List.map_nil, List.mem_singleton] at hk2
      subst hk2
      rw [lookupOp_eq_none_iff] at h
      exact h hk
    · intro q hq
      rcases List.mem_append.mp hq with h1 | h1
      · exact hkids q h1
      · rw [List.mem_singleton] at h1
        subst h1
        exact ⟨rfl, wf_new _⟩

/-- Replacing (or keeping) a child under a key with a well-formed
child of the right message preserves node well-formedness. -/
theorem wf_replace (t : Timestamp) (op : Op) (v : Timestamp)
    (hwf : wf t = true) (hv : wf v = true)
    (hmsg : v.msg = op.apply t.msg) :
    wf (Timestamp.mk t.msg t.attestations (replaceOp t.ops op v))
      = true := by
  obtain ⟨m, a, o⟩ := t
  rw [wf_iff] at hwf
  obtain ⟨hnda, hndk, hkids⟩ := hwf
  rw [wf_iff]
  refine ⟨hnda, ?_, ?_⟩
  · rw [keys_replaceOp]
    exact hndk
  · intro q hq
    rcases mem_replaceOp hq with h1 | rfl
    · exact hkids q h1
    · exact ⟨hmsg, hv⟩

/-- Full characterization of `cat_then_unary_op` on well-formed
inputs: it succeeds, both updated parents share one child holding the
concatenation, and the returned tip is that child's `u`-child with the
hashed message. -/
theorem catSpec (u : Op) (L R : Timestamp) (hwfL : wf L = true)
    (hwfR : wf R = true) :
    ∃ l2 r2 tip, cat_then_unary_op u L R = .ok (l2, r2, tip) ∧
      wf l2 = true ∧ wf r2 = true ∧ wf tip = true ∧
      l2.msg = L.msg ∧ r2.msg = R.msg ∧
      l2.attestations = L.attestations ∧
      r2.attestations = R.attestations ∧
      tip.msg = u.apply (L.msg ++ R.msg) ∧
      ∃ S, lookupOp (.opAppend R.msg) l2.ops = some S ∧
        lookupOp (.opPrepend L.msg) r2.ops = some S ∧
        S.msg = L.msg ++ R.msg ∧ wf S = true ∧
        lookupOp u S.ops = some tip := by
  obtain ⟨hwfL1, hlaswf, hlasmsg⟩ := addOp_wf L (.opAppend R.msg) hwfL
  obtain ⟨hwfR1, hrpswf, hrpsmsg⟩ := addOp_wf R (.opPrepend L.msg) hwfR
  obtain ⟨hwfrps1, htipwf, htipmsg⟩ :=
    addOp_wf (R.addOp (.opPrepend L.msg)).2 u hrpswf
  have hlasmsg2 : (L.addOp (.opAppend R.msg)).2.msg = L.msg ++ R.msg := by
    rw [hlasmsg]
    rfl
  have hrpsmsg2 : (R.addOp (.opPrepend L.msg)).2.msg = L.msg ++ R.msg := by
    rw [hrpsmsg]
    rfl
  have hrps2msg : ((R.addOp (.opPrepend L.msg)).2.addOp u).1.msg
      = L.msg ++ R.msg := by
    rw [addOp_msg, hrpsmsg2]
  have hsetitem : OpSet.setItem (L.addOp (.opAppend R.msg)).1.ops
      (.opAppend R.msg) (R.addOp (.opPrepend L.msg)).2
      = .ok (replaceOp (L.addOp (.opAppend R.msg)).1.ops
          (.opAppend R.msg) (R.addOp (.opPrepend L.msg)).2) := by
    unfold OpSet.setItem
    simp [addOp_lookup, hlasmsg2, hrpsmsg2]
  have hcat : cat_then_unary_op u L R
      = .ok (Timestamp.mk (L.addOp (.opAppend R.msg)).1.msg
          (L.addOp (.opAppend R.msg)).1.attestations
          (replaceOp (replaceOp (L.addOp (.opAppend R.msg)).1.ops
            (.opAppend R.msg) (R.addOp (.opPrepend L.msg)).2)
            (.opAppend R.msg) ((R.addOp (.opPrepend L.msg)).2.addOp u).1),
        Timestamp.mk (R.addOp (.opPrepend L.msg)).1.msg
          (R.addOp (.opPrepend L.msg)).1.attestations
          (replaceOp (R.addOp (.opPrepend L.msg)).1.ops
            (.opPrepend L.msg) ((R.addOp (.opPrepend L.msg)).2.addOp u).1),
        ((R.addOp (.opPrepend L.msg)).2.addOp u).2) := by
    unfold cat_then_unary_op
    simp only [hsetitem]
  -- the intermediate left parent after the first rebinding
  have hwflops : wf (Timestamp.mk (L.addOp (.opAppend R.msg)).1.msg
      (L.addOp (.opAppend R.msg)).1.attestations
      (replaceOp (L.addOp (.opAppend R.msg)).1.ops (.opAppend R.msg)
        (R.addOp (.opPrepend L.msg)).2)) = true := by
    refine wf_replace _ _ _ hwfL1 hrpswf ?_
    rw [hrpsmsg2, addOp_msg]
    rfl
  have hwfleft2 : wf (Timestamp.mk (L.addOp (.opAppend R.msg)).1.msg
      (L.addOp (.opAppend R.msg)).1.attestations
      (replaceOp (replaceOp (L.addOp (.opAppend R.msg)).1.ops
        (.opAppend R.msg) (R.addOp (.opPrepend L.msg)).2)
        (.opAppend R.msg) ((R.addOp (.opPrepend L.msg)).2.addOp u).1))
      = true := by
    have := wf_replace (Timestamp.mk (L.addOp (.opAppend R.msg)).1.msg
      (L.addOp (.opAppend R.msg)).1.attestations
      (replaceOp (L.addOp (.opAppend R.msg)).1.ops (.opAppend R.msg)
        (R.addOp (.opPrepend L.msg)).2)) (.opAppend R.msg)
      ((R.addOp (.opPrepend L.msg)).2.addOp u).1 hwflops hwfrps1
      (by
        rw [hrps2msg]
        show L.msg ++ R.msg
          = (Op.opAppend R.msg).apply (L.addOp (Op.opAppend R.msg)).1.msg
        rw [addOp_msg]
        rfl)
    exact this
  have hwfright2 : wf (Timestamp.mk (R.addOp (.opPrepend L.msg)).1.msg
      (R.addOp (.opPrepend L.msg)).1.attestations
      (replaceOp (R.addOp (.opPrepend L.msg)).1.ops (.opPrepend L.msg)
        ((R.addOp (.opPrepend L.msg)).2.addOp u).1)) = true := by
    refine wf_replace _ _ _ hwfR1 hwfrps1 ?_
    rw [hrps2msg, addOp_msg]
    rfl
  refine ⟨_, _, _, hcat, hwfleft2, hwfright2, htipwf, ?_, ?_, ?_, ?_,
    ?_, ?_⟩
  · exact addOp_msg L (.opAppend R.msg)
  · exact addOp_msg R (.opPrepend L.msg)
  · exact addOp_attestations L (.opAppend R.msg)
  · exact addOp_attestations R (.opPrepend L.msg)
  · rw [htipmsg, hrpsmsg2]
  · refine ⟨((R.addOp (.opPrepend L.msg)).2.addOp u).1, ?_, ?_, hrps2msg,
      hwfrps1, addOp_lookup _ _⟩
    · exact lookupOp_replaceOp_self _
        (lookupOp_replaceOp_self _ (addOp_lookup _ _))
    · exact lookupOp_replaceOp_self _ (addOp_lookup _ _)

/-! ### C8: sharing after `cat_sha256` -/

/-- C8: for all well-formed timestamps L and R, after `cat_sha256 L R`
the updated parents hold the same subtree under `Append(R.msg)` (in L)
and `Prepend(L.msg)` (in R); its message is `L.msg ++ R.msg`, and the
returned tip is that shared subtree's SHA256 child, with message
`SHA256(L.msg ++ R.msg)`. -/
theorem C8_cat_sharing (L R : Timestamp) (hwfL : wf L = true)
    (hwfR : wf R = true) :
    ∃ l2 r2 tip, cat_sha256 L R = .ok (l2, r2, tip) ∧
      ∃ S, lookupOp (.opAppend R.msg) l2.ops = some S ∧
        lookupOp (.opPrepend L.msg) r2.ops = some S ∧
        S.msg = L.msg ++ R.msg ∧
        lookupOp .opSHA256 S.ops = some tip ∧
        tip.msg = sha256 (L.msg ++ R.msg) := by
  obtain ⟨l2, r2, tip, hcat, -, -, -, -, -, -, -, htip,
    S, hSl, hSr, hSmsg, -, hStip⟩ := catSpec .opSHA256 L R hwfL hwfR
  exact ⟨l2, r2, tip, hcat, S, hSl, hSr, hSmsg, hStip, htip⟩

theorem C8_witness :
    ∃ l2 r2 tip,
      cat_sha256 (Timestamp.new [1]) (Timestamp.new [2])
        = .ok (l2, r2, tip) ∧
      ∃ S, lookupOp (.opAppend [2]) l2.ops = some S ∧
        lookupOp (.opPrepend [1]) r2.ops = some S ∧
        S.msg = [1] ++ [2] ∧
        lookupOp .opSHA256 S.ops = some tip ∧
        tip.msg = sha256 ([1] ++ [2]) :=
  C8_cat_sharing (Timestamp.new [1]) (Timestamp.new [2])
    (wf_new [1]) (wf_new [2])

/-! ### C9: merkle tree of three leaves -/

/-- Unfolding `make_merkle_tree` one round when the level loop emits a
non-empty list: recurse on the emitted list plus any pending element. -/
theorem make_merkle_tree_step {t : Timestamp} {rest : List Timestamp}
    {n1 : Timestamp} {ns : List Timestamp} {pr : Option Timestamp}
    (hlvl : merkleLevel (some t) rest = .ok (n1 :: ns, pr)) :
    make_merkle_tree (t :: rest)
      = make_merkle_tree
          (match pr with
           | some p => (n1 :: ns) ++ [p]
           | none => n1 :: ns) := by
  rw [make_merkle_tree]
  split
  · rename_i e heq
    rw [hlvl] at heq
    cases heq
  · rename_i pr2 heq
    rw [hlvl] at heq
    simp at heq
  · rename_i n1b nsb prb heq
    rw [hlvl] at heq
    simp only [Except.ok.injEq, Prod.mk.injEq, List.cons.injEq] at heq
    obtain ⟨⟨rfl, rfl⟩, rfl⟩ := heq
    rfl

/-- Unfolding `make_merkle_tree` when the level loop emits nothing:
the pending element is the result. -/
theorem make_merkle_tree_done {t : Timestamp} {rest : List Timestamp}
    {p : Timestamp}
    (hlvl : merkleLevel (some t) rest = .ok ([], some p)) :
    make_merkle_tree (t :: rest) = .ok p := by
  rw [make_merkle_tree]
  split
  · rename_i e heq
    rw [hlvl] at heq
    cases heq
  · rename_i pr2 heq
    rw [hlvl] at heq
    simp only [Except.ok.injEq, Prod.mk.injEq] at heq
    obtain ⟨-, hp⟩ := heq
    subst hp
    rfl
  · rename_i n1b nsb prb heq
    rw [hlvl] at heq
    simp at heq

/-- A singleton level returns its element unchanged. -/
theorem make_merkle_tree_one (a : Timestamp) :
    make_merkle_tree [a] = .ok a :=
  make_merkle_tree_done (by simp [merkleLevel])

/-- Two elements: the result is the `cat_sha256` tip. -/
theorem make_merkle_tree_two {a b ab1 ab2 tip : Timestamp}
    (h : cat_sha256 a b = .ok (ab1, ab2, tip)) :
    make_merkle_tree [a, b] = .ok tip := by
  have hlvl : merkleLevel (some a) [b] = .ok ([tip], none) := by
    simp [merkleLevel, h]
  rw [make_merkle_tree_step hlvl]
  exact make_merkle_tree_one tip

/-- Three elements: the first two pair up and the odd element is
carried to the next round unchanged. -/
theorem make_merkle_tree_three {a b c ab1 ab2 t12 : Timestamp}
    (h : cat_sha256 a b = .ok (ab1, ab2, t12)) :
    make_merkle_tree [a, b, c] = make_merkle_tree [t12, c] := by
  have hlvl : merkleLevel (some a) [b, c] = .ok ([t12], some c) := by
    simp [merkleLevel, h]
  rw [make_merkle_tree_step hlvl]
  rfl

/-- C9: `make_merkle_tree` on a three-element list of well-formed
timestamps pairs the first two leaves, carries the third up unchanged
(it is never self-hashed), pairs the result with the third, and the
returned tip commits to `SHA256(SHA256(L1.msg ++ L2.msg) ++ L3.msg)`. -/
theorem C9_merkle_three (L1 L2 L3 : Timestamp) (h1 : wf L1 = true)
    (h2 : wf L2 = true) (h3 : wf L3 = true) :
    ∃ tip, make_merkle_tree [L1, L2, L3] = .ok tip ∧
      tip.msg = sha256 (sha256 (L1.msg ++ L2.msg) ++ L3.msg) := by
  obtain ⟨l2, r2, t12, hcat, -, -, hwt12, -, -, -, -, ht12msg, -⟩ :=
    catSpec .opSHA256 L1 L2 h1 h2
  obtain ⟨l2b, r2b, tip, hcat2, -, -, -, -, -, -, -, htipmsg, -⟩ :=
    catSpec .opSHA256 t12 L3 hwt12 h3
  refine ⟨tip, ?_, ?_⟩
  · rw [make_merkle_tree_three hcat, make_merkle_tree_two hcat2]
  · rw [htipmsg, ht12msg]
    rfl

theorem C9_witness :
    ∃ tip, make_merkle_tree
        [Timestamp.new [1], Timestamp.new [2], Timestamp.new [3]]
      = .ok tip ∧
      tip.msg = sha256 (sha256 ([1] ++ [2]) ++ [3]) :=
  C9_merkle_three (Timestamp.new [1]) (Timestamp.new [2])
    (Timestamp.new [3]) (wf_new [1]) (wf_new [2]) (wf_new [3])

/-! ### C5: the child-message invariant is preserved by every public
operation -/

/-- `ops[op] = c` preserves node well-formedness when the stored child
is well-formed and carries `op(msg)`. -/
theorem wf_setItem {msg : Bytes} {atts : List TimeAttestation}
    {ops : List (Op × Timestamp)} {op : Op} {c : Timestamp}
    {ops2 : List (Op × Timestamp)}
    (hwf : wf (.mk msg atts ops) = true) (hc : wf c = true)
    (hmsg : c.msg = op.apply msg)
    (h : OpSet.setItem ops op c = .ok ops2) :
    wf (.mk msg atts ops2) = true := by
  unfold OpSet.setItem at h
  match hl : lookupOp op ops with
  | none =>
    rw [hl] at h
    injection h with h2
    subst h2
    rw [wf_iff] at hwf ⊢
    obtain ⟨hnda, hndk, hkids⟩ := hwf
    refine ⟨hnda, ?_, ?_⟩
    · rw [List.map_append]
      refine List.Nodup.append hndk (by simp) ?_
      intro k hk hk2
      simp only [List.map_cons, List.map_nil, List.mem_singleton] at hk2
      subst hk2
      rw [lookupOp_eq_none_iff] at hl
      exact hl hk
    · intro q hq
      rcases List.mem_append.mp hq with h1 | h1
      · exact hkids q h1
      · rw [List.mem_singleton] at h1
        subst h1
        exact ⟨hmsg, hc⟩
  | some ex =>
    rw [hl] at h
    have h2 : (if ex.msg ≠ c.msg then
        (Except.error "Can't change existing result timestamp: timestamps are for different messages"
          : Except String (List (Op × Timestamp)))
      else .ok (replaceOp ops op c)) = .ok ops2 := h
    by_cases hm : ex.msg ≠ c.msg
    · rw [if_pos hm] at h2
      cases h2
    · rw [if_neg hm] at h2
      injection h2 with h3
      subst h3
      exact wf_replace (.mk msg atts ops) op c hwf hc hmsg

/-- Every node the parser produces is well-formed and carries the
message supplied for it; the accumulated attestation/op lists stay
well-formed throughout. -/
theorem dsWf : ∀ fuel : Nat,
    (∀ msg s t r, dsNode fuel msg s = some (t, r) →
      wf t = true ∧ t.msg = msg) ∧
    (∀ msg atts ops tag s t r, wf (.mk msg atts ops) = true →
      dsTags fuel msg atts ops tag s = some (t, r) →
      wf t = true ∧ t.msg = msg) ∧
    (∀ msg atts ops kind s atts2 ops2 r,
      wf (.mk msg atts ops) = true →
      dsItem fuel msg atts ops kind s = some (atts2, ops2, r) →
      wf (.mk msg atts2 ops2) = true) := by
  intro fuel
  induction fuel with
  | zero =>
    refine ⟨?_, ?_, ?_⟩
    · intro msg s t r h
      simp [dsNode.eq_def] at h
    · intro msg atts ops tag s t r hwf h
      simp [dsTags.eq_def] at h
    · intro msg atts ops kind s atts2 ops2 r hwf h
      simp [dsItem.eq_def] at h
  | succ fuel ih =>
    obtain ⟨ihN, ihT, ihI⟩ := ih
    refine ⟨?_, ?_, ?_⟩
    · intro msg s t r h
      match s with
      | [] => simp [dsNode.eq_def] at h
      | tag :: rest =>
        rw [dsNode_succ] at h
        exact ihT msg [] [] tag rest t r (wf_new msg) h
    · intro msg atts ops tag s t r hwf h
      by_cases htag : tag = 0xff
      · subst htag
        match s with
        | [] => simp [dsTags.eq_def] at h
        | kind :: s2 =>
          rw [dsTags_ff] at h
          match hi : dsItem fuel msg atts ops kind s2 with
          | none => rw [hi] at h; cases h
          | some (atts2b, ops2b, s3) =>
            rw [hi] at h
            have hwf2 := ihI msg atts ops kind s2 atts2b ops2b s3 hwf hi
            match s3 with
            | [] => cases h
            | tag2 :: s4 => exact ihT msg atts2b ops2b tag2 s4 t r hwf2 h
      · rw [dsTags_term _ _ _ _ _ _ htag] at h
        match hi : dsItem fuel msg atts ops tag s with
        | none => rw [hi] at h; cases h
        | some (atts2b, ops2b, s3) =>
          rw [hi] at h
          have hwf2 := ihI msg atts ops tag s atts2b ops2b s3 hwf hi
          simp only [Option.some.injEq, Prod.mk.injEq] at h
          obtain ⟨rfl, rfl⟩ := h
          exact ⟨hwf2, rfl⟩
    · intro msg atts ops kind s atts2 ops2 r hwf h
      by_cases hkind : kind = 0x00
      · subst hkind
        rw [dsItem_att] at h
        match ha : TimeAttestation.deserialize s with
        | none => rw [ha] at h; cases h
        | some (a2, r2) =>
          rw [ha] at h
          simp only [Option.some.injEq, Prod.mk.injEq] at h
          obtain ⟨rfl, rfl, rfl⟩ := h
          rw [wf_iff] at hwf ⊢
          exact ⟨nodup_setAdd atts a2 hwf.1, hwf.2.1, hwf.2.2⟩
      · rw [dsItem_op _ _ _ _ _ _ hkind] at h
        match hop : Op.deserializeFromTag kind s with
        | none => rw [hop] at h; cases h
        | some (op, r0) =>
          rw [hop] at h
          have h2 : (match dsNode fuel (op.apply msg) r0 with
              | none => none
              | some (child, r2) =>
                match OpSet.setItem ops op child with
                | .error _ => none
                | .ok ops2b => some (atts, ops2b, r2))
              = some (atts2, ops2, r) := h
          match hch : dsNode fuel (op.apply msg) r0 with
          | none => rw [hch] at h2; cases h2
          | some (child, r2) =>
            rw [hch] at h2
            obtain ⟨hcwf, hcmsg⟩ :=
              ihN (op.apply msg) r0 child r2 hch
            have h3 : (match OpSet.setItem ops op child with
                | .error _ => none
                | .ok ops2b => some (atts, ops2b, r2))
                = some (atts2, ops2, r) := h2
            match hsi : OpSet.setItem ops op child with
            | .error e => rw [hsi] at h3; cases h3
            | .ok ops2b =>
              rw [hsi] at h3
              simp only [Option.some.injEq, Prod.mk.injEq] at h3
              obtain ⟨rfl, rfl, rfl⟩ := h3
              exact wf_setItem hwf hcwf hcmsg hsi

/-- Every timestamp emitted or left pending by one pass of the pairing
loop is well-formed, given well-formed inputs. -/
theorem merkleLevel_wf :
    ∀ (l : List Timestamp) (prev : Option Timestamp)
      (outs : List Timestamp) (pr : Option Timestamp),
      (∀ x ∈ l, wf x = true) →
      (∀ x, prev = some x → wf x = true) →
      merkleLevel prev l = .ok (outs, pr) →
      (∀ x ∈ outs, wf x = true) ∧
        (∀ x, pr = some x → wf x = true) := by
  intro l
  induction l with
  | nil =>
    intro prev outs pr hl hp h
    simp only [merkleLevel, Except.ok.injEq, Prod.mk.injEq] at h
    obtain ⟨rfl, rfl⟩ := h
    exact ⟨by simp, hp⟩
  | cons s rest ih =>
    intro prev outs pr hl hp h
    match prev with
    | none =>
      simp only [merkleLevel] at h
      refine ih (some s) outs pr
        (fun x hx => hl x (List.mem_cons_of_mem _ hx)) ?_ h
      intro x hx
      injection hx with h2
      subst h2
      exact hl s (by simp)
    | some p =>
      have hwp : wf p = true := hp p rfl
      have hws : wf s = true := hl s (by simp)
      obtain ⟨l2b, r2b, tipb, hcat, -, -, hwtip, -, -, -, -, -, -⟩ :=
        catSpec .opSHA256 p s hwp hws
      have hcat2 : cat_sha256 p s = Except.ok (l2b, r2b, tipb) := hcat
      simp only [merkleLevel, hcat2] at h
      match hrec : merkleLevel none rest with
      | .error e => rw [hrec] at h; cases h
      | .ok (outs2, pr2) =>
        rw [hrec] at h
        simp only [Except.ok.injEq, Prod.mk.injEq] at h
        obtain ⟨rfl, rfl⟩ := h
        obtain ⟨houts2, hpr2⟩ := ih none outs2 pr2
          (fun x hx => hl x (List.mem_cons_of_mem _ hx))
          (fun x hx => by cases hx) hrec
        refine ⟨?_, hpr2⟩
        intro x hx
        rcases List.mem_cons.mp hx with rfl | hx2
        · exact hwtip
        · exact houts2 x hx2

/-- The tip of the merkle construction is well-formed when every leaf
is. -/
theorem make_merkle_tree_wf :
    ∀ (n : Nat) (l : List Timestamp) (t : Timestamp), l.length ≤ n →
      (∀ x ∈ l, wf x = true) → make_merkle_tree l = .ok t →
      wf t = true := by
  intro n
  induction n with
  | zero =>
    intro l t hlen hl h
    match l with
    | [] => rw [make_merkle_tree] at h; cases h
    | x :: rest => simp at hlen
  | succ n ih =>
    intro l t hlen hl h
    match l with
    | [] => rw [make_merkle_tree] at h; cases h
    | t0 :: rest =>
      have hl0 : wf t0 = true := hl t0 (by simp)
      have hlrest : ∀ x ∈ rest, wf x = true :=
        fun x hx => hl x (List.mem_cons_of_mem _ hx)
      have hprev : ∀ x, some t0 = some x → wf x = true := by
        intro x hx
        injection hx with h2
        subst h2
        exact hl0
      rw [make_merkle_tree] at h
      split at h
      · cases h
      · rename_i pr2 heq
        have hwf := merkleLevel_wf rest (some t0) [] pr2 hlrest hprev heq
        cases pr2 with
        | some p =>
          injection h with h2
          subst h2
          exact hwf.2 _ rfl
        | none => cases h
      · rename_i n1 ns pr heq
        have hlen2 := merkleLevel_length (some t0) rest (n1 :: ns) pr heq
        have hwf := merkleLevel_wf rest (some t0) (n1 :: ns) pr
          hlrest hprev heq
        simp only [List.length_cons] at hlen hlen2
        cases pr with
        | some p =>
          refine ih ((n1 :: ns) ++ [p]) t ?_ ?_ h
          · simp at hlen2 ⊢
            omega
          · intro x hx
            rcases List.mem_append.mp hx with hx2 | hx2
            · exact hwf.1 x hx2
            · rw [List.mem_singleton] at hx2
              subst hx2
              exact hwf.2 _ rfl
        | none =>
          refine ih (n1 :: ns) t ?_ ?_ h
          · simp at hlen2 ⊢
            omega
          · exact hwf.1

/-- C5: every public operation yields well-formed timestamps, and a
well-formed timestamp satisfies the child-message invariant at every
node: each entry `(op, child)` of its op map has
`child.msg = op(node.msg)`, with the child well-formed in turn (so the
invariant holds at every depth).  The operations: `new`, `ops.add`,
`merge`, `deserialize`, `cat_then_unary_op`, `make_merkle_tree`. -/
theorem C5_invariant :
    (∀ msg, wf (Timestamp.new msg) = true) ∧
    (∀ t op, wf t = true →
      wf (t.addOp op).1 = true ∧ wf (t.addOp op).2 = true) ∧
    (∀ t o r, wf t = true → wf o = true → t.merge o = .ok r →
      wf r = true) ∧
    (∀ s msg t r, Timestamp.deserialize s msg = some (t, r) →
      wf t = true ∧ t.msg = msg) ∧
    (∀ u L R l2 r2 tip, wf L = true → wf R = true →
      cat_then_unary_op u L R = .ok (l2, r2, tip) →
      wf l2 = true ∧ wf r2 = true ∧ wf tip = true) ∧
    (∀ l t, (∀ x ∈ l, wf x = true) → make_merkle_tree l = .ok t →
      wf t = true) ∧
    (∀ t, wf t = true →
      ∀ p ∈ t.ops, p.2.msg = p.1.apply t.msg ∧ wf p.2 = true) := by
  refine ⟨wf_new, ?_, ?_, ?_, ?_, ?_, ?_⟩
  · intro t op hwf
    obtain ⟨h1, h2, -⟩ := addOp_wf t op hwf
    exact ⟨h1, h2⟩
  · intro t o r hwt hwo h
    have hmsg : t.msg = o.msg := by
      by_contra hne
      obtain ⟨m, a, os⟩ := t
      obtain ⟨m2, a2, os2⟩ := o
      simp only [Timestamp.msg] at hne
      rw [Timestamp.merge] at h
      rw [if_pos hne] at h
      cases h
    obtain ⟨r2, hr2, -, hwr2, -, -, -⟩ :=
      mergeSpec (sizeOf o) o le_rfl t hwt hwo hmsg
    rw [h] at hr2
    injection hr2 with h2
    subst h2
    exact hwr2
  · intro s msg t r h
    exact (dsWf (3 * s.length + 3)).1 msg s t r h
  · intro u L R l2 r2 tip hL hR h
    obtain ⟨l2b, r2b, tipb, hcat, hw1, hw2, hw3, -, -, -, -, -, -⟩ :=
      catSpec u L R hL hR
    rw [h] at hcat
    simp only [Except.ok.injEq, Prod.mk.injEq] at hcat
    obtain ⟨rfl, rfl, rfl⟩ := hcat
    exact ⟨hw1, hw2, hw3⟩
  · intro l t hl h
    exact make_merkle_tree_wf l.length l t le_rfl hl h
  · intro t hwf p hp
    obtain ⟨m, a, o⟩ := t
    rw [wf_iff] at hwf
    exact hwf.2.2 p hp

/-- C5, witness: concrete instances of the first two closure
properties. -/
theorem C5_witness :
    wf (Timestamp.new [7]) = true ∧
      wf ((Timestamp.new [7]).addOp .opSHA256).1 = true :=
  ⟨C5_invariant.1 [7],
    (C5_invariant.2.1 (Timestamp.new [7]) .opSHA256 (wf_new [7])).1⟩

end OTS
